import Mathlib

/-!
timereport: binary record codec, day buckets and range trim

A shallow embedding of the two programs of the repository:

* `server/main.go`: `ReportTemperature` builds the bytes of one report and
  appends them to the bucket of the report's day;
* `display/main.go`: `FetchData` decodes the bytes of a bucket, and the handler
  of `/` enumerates the day buckets of a window, merges them and trims the
  merged list with two binary searches.

Go strings are byte strings (`Bytes`).  A `time.Time` is modelled by the
instant it denotes, counted in nanoseconds since the Unix epoch.  A `float64`
is modelled by its 64 bit IEEE-754 pattern: the codec only moves the bits.
-/

namespace Timereport

/-! ## Bytes and 64 bit integers -/

abbrev Byte := Fin 256

abbrev Bytes := List Byte

/-- The instant of a Go `time.Time`, in nanoseconds since the Unix epoch. -/
structure Time where
  nanos : Int
deriving DecidableEq, Repr

/-- Go `Time.Unix()`: the whole seconds since the epoch (rounded down). -/
def Time.Unix (t : Time) : Int := t.nanos / 1000000000

/-- Go `time.Unix(sec, 0)`. -/
def timeUnix (sec : Int) : Time := ⟨sec * 1000000000⟩

/-- Go `t.After(u)`. -/
def Time.After (t u : Time) : Bool := decide (u.nanos < t.nanos)

/-- Go `t.Before(u)`. -/
def Time.Before (t u : Time) : Bool := decide (t.nanos < u.nanos)

/-- Go `t.Add(d)`, the duration `d` in nanoseconds. -/
def Time.Add (t : Time) (d : Int) : Time := ⟨t.nanos + d⟩

/-- Go `time.Second`, `time.Hour` (durations are nanosecond counts). -/
def Second : Int := 1000000000

def Hour : Int := 3600 * Second

/-- Go `t.Truncate(d)` for a positive duration: round down to a multiple of
`d`.  The zero time of Go lies a whole number of days before the Unix epoch,
so for `d = 24h` the multiples are the same as the multiples counted from the
epoch. -/
def Time.Truncate (t : Time) (d : Int) : Time :=
  if d ≤ 0 then t else ⟨t.nanos - t.nanos % d⟩

/-- A Go `map[string]string`: its entries, the keys pairwise distinct. -/
abbrev GoMap := List (Bytes × Bytes)

/-- Go `m[k]` with the presence flag. -/
def mapGet : GoMap → Bytes → Option Bytes
  | [], _ => none
  | (k', v') :: rest, k => if k' = k then some v' else mapGet rest k

/-- Go `m[k] = v`. -/
def mapSet : GoMap → Bytes → Bytes → GoMap
  | [], k, v => [(k, v)]
  | (k', v') :: rest, k, v =>
    if k' = k then (k, v) :: rest else (k', v') :: mapSet rest k v

/-- The struct `Report` of both programs.  `Value` is the bit pattern of the
`float64`. -/
structure Report where
  Series : Bytes
  Value : Nat
  Metadata : GoMap
  Timestamp : Time
deriving DecidableEq, Repr

/-- The `n` low bytes of `u`, least significant first. -/
def leBytes : Nat → Nat → Bytes
  | 0, _ => []
  | n + 1, u => ⟨u % 256, Nat.mod_lt _ (by decide)⟩ :: leBytes n (u / 256)

/-- The number a little-endian byte string denotes. -/
def leNat : Bytes → Nat
  | [] => 0
  | b :: bs => b.val + 256 * leNat bs

/-- The 64 bit pattern of a Go `int64` (two's complement). -/
def ofInt64 (x : Int) : Nat := (x % 18446744073709551616).toNat

/-- The Go `int64` a 64 bit pattern denotes. -/
def toInt64 (u : Nat) : Int :=
  if u % 18446744073709551616 < 9223372036854775808 then
    (u % 18446744073709551616 : Nat)
  else ((u % 18446744073709551616 : Nat) : Int) - 18446744073709551616

/-- Go `binary.Write(buf, binary.LittleEndian, x)` for an `int64` or the bits
of a `float64`: eight bytes appended. -/
def binaryWrite (bits : Nat) : Bytes := leBytes 8 bits

/-! ## server: the encoder of `ReportTemperature` -/

/-- The body of `for key, value := range payload.Metadata`, run over the
entries in the order the iteration visits them. -/
def writeMetadata : GoMap → Bytes
  | [] => []
  | (key, value) :: rest =>
    binaryWrite (ofInt64 key.length) ++ binaryWrite (ofInt64 value.length) ++ key ++ value
      ++ writeMetadata rest

/-- The buffer `buf` that `ReportTemperature` builds for `payload` and sends.
`order` is the order in which `range payload.Metadata` visits the entries of
the map. -/
def ReportTemperature (payload : Report) (order : GoMap) : Bytes :=
  binaryWrite (ofInt64 payload.Timestamp.Unix)
    ++ binaryWrite payload.Value
    ++ binaryWrite (ofInt64 payload.Series.length)
    ++ binaryWrite (ofInt64 payload.Metadata.length)
    ++ payload.Series
    ++ writeMetadata order

/-- What a bucket holds after the appends of a batch: the buffers of the
reports back to back.  Each report comes with the iteration order of its
metadata map. -/
def appendAll : List (Report × GoMap) → Bytes
  | [] => []
  | (payload, order) :: rest => ReportTemperature payload order ++ appendAll rest

/-! ## display: the decode loop of `FetchData` -/

/-- Go `binary.Read(reader, binary.LittleEndian, &x)` for an eight byte `x`:
`io.ReadFull` takes eight bytes; with fewer left it takes them all, reports an
error (which `FetchData` drops) and leaves `x` as it was (`old`). -/
def binaryRead (reader : Bytes) (old : Nat) : Nat × Bytes :=
  if 8 ≤ reader.length then (leNat (reader.take 8), reader.drop 8) else (old, [])

/-- Go `make([]byte, n)` for an `int64` `n`: a runtime panic (`none`) for a
negative length or one above the allocation limit of the runtime, else
a zeroed slice of that length. -/
def makeBytes (maxAlloc : Nat) (n : Int) : Option Nat :=
  if 0 ≤ n ∧ n ≤ (maxAlloc : Int) then some n.toNat else none

/-- Go `reader.Read(b)` into a zeroed slice of length `n`: the bytes that are
left are copied, at most `n`; the rest of the slice stays zero. -/
def readerRead (reader : Bytes) (n : Nat) : Bytes × Bytes :=
  (reader.take n ++ List.replicate (n - reader.length) 0, reader.drop n)

/-- The loop `for i := int64(0); i < metadataLen; i++` of `FetchData`; `none`
is a runtime panic. -/
def readMetadata (maxAlloc : Nat) : Nat → Bytes → GoMap → Option (GoMap × Bytes)
  | 0, reader, metadata => some (metadata, reader)
  | n + 1, reader, metadata =>
    let (keyLen, reader) := binaryRead reader 0
    let (valueLen, reader) := binaryRead reader 0
    match makeBytes maxAlloc (toInt64 keyLen), makeBytes maxAlloc (toInt64 valueLen) with
    | some kl, some vl =>
      let (keyBytes, reader) := readerRead reader kl
      let (valueBytes, reader) := readerRead reader vl
      readMetadata maxAlloc n reader (mapSet metadata keyBytes valueBytes)
    | _, _ => none

/-- One turn of the loop `for reader.Len() > 0` of `FetchData`: the report
read and the reader after it; `none` is a runtime panic. -/
def decodeRecord (maxAlloc : Nat) (reader : Bytes) : Option (Report × Bytes) :=
  let (unix, reader) := binaryRead reader 0
  let (value, reader) := binaryRead reader 0
  let (seriesLen, reader) := binaryRead reader 0
  let (metadataLen, reader) := binaryRead reader 0
  match makeBytes maxAlloc (toInt64 seriesLen) with
  | none => none
  | some n =>
    let (seriesBytes, reader) := readerRead reader n
    match readMetadata maxAlloc (toInt64 metadataLen).toNat reader [] with
    | none => none
    | some (metadata, reader) =>
      some ({ Series := seriesBytes, Value := value, Metadata := metadata,
              Timestamp := timeUnix (toInt64 unix) }, reader)

/-- How a call of a Go function ends: it returns its results, it panics, or
(in the model only) the turns allotted to a loop run out. -/
inductive Outcome where
  | returned (reports : List Report) (err : Option String)
  | panicked
  | unfinished
deriving DecidableEq, Repr

/-- The loop `for reader.Len() > 0 { ... }` followed by `return reports, nil`,
run for at most `fuel` turns. -/
def decodeLoop (maxAlloc : Nat) : Nat → Bytes → List Report → Outcome
  | 0, reader, reports =>
    if reader.length > 0 then Outcome.unfinished else Outcome.returned reports none
  | fuel + 1, reader, reports =>
    if reader.length > 0 then
      match decodeRecord maxAlloc reader with
      | none => Outcome.panicked
      | some (report, reader) => decodeLoop maxAlloc fuel reader (reports ++ [report])
    else Outcome.returned reports none

/-- The part of `FetchData` after the response was read: the decode loop over
`data`.  Every turn takes at least one byte, so `data.length` turns are
enough (`FetchData_finishes`). -/
def FetchData (maxAlloc : Nat) (data : Bytes) : Outcome :=
  decodeLoop maxAlloc data.length data []

/-! ## What the properties speak of -/

/-- The report `FetchData` is to give back for a report sent: the same series,
value bits and timestamp, and the entries of the metadata map in the order in
which they were written. -/
def received (p : Report × GoMap) : Report :=
  { Series := p.1.Series, Value := p.1.Value, Metadata := p.2, Timestamp := p.1.Timestamp }

/-- Two reports are the same report: the same series, the same 64 bit value,
the same instant, and metadata maps that answer every lookup alike. -/
def Report.same (a b : Report) : Prop :=
  a.Series = b.Series ∧ a.Value = b.Value ∧ a.Timestamp = b.Timestamp
    ∧ a.Metadata.length = b.Metadata.length
    ∧ ∀ k, mapGet a.Metadata k = mapGet b.Metadata k

/-- A report as a Go program can hold it, with one iteration order of its
metadata map: the keys of the map are distinct, `order` lists the entries of
the map, the timestamp is at a whole second whose Unix time is an `int64`,
the value is a 64 bit pattern, and every string can be allocated (its length is
at most `maxAlloc`). -/
structure WellFormed (maxAlloc : Nat) (p : Report × GoMap) : Prop where
  order_perm : p.2.Perm p.1.Metadata
  keys_nodup : (p.1.Metadata.map Prod.fst).Nodup
  whole_second : p.1.Timestamp.nanos % 1000000000 = 0
  unix_lo : -9223372036854775808 ≤ p.1.Timestamp.Unix
  unix_hi : p.1.Timestamp.Unix < 9223372036854775808
  value_bits : p.1.Value < 18446744073709551616
  series_len : p.1.Series.length ≤ maxAlloc
  entry_len : ∀ kv ∈ p.1.Metadata, kv.1.length ≤ maxAlloc ∧ kv.2.length ≤ maxAlloc
  count : p.1.Metadata.length < 9223372036854775808

/-- The bytes of a record in which a length field reads as a negative `int64`,
in the three places where the decode loop of `FetchData` reads a length.  The
fields are given by their 64 bit patterns, so that any eight bytes can stand
in a field; `rest` is whatever follows, of any length, none included.
`maxAlloc` is a length that `make` serves.

* `series`: the `series_length` field is negative.
* `key`: the series is sound, sound metadata pairs follow, fewer than the
  metadata count, and the `key_length` field of the next pair is negative.
* `value`: as before, the `key_length` of the next pair can be allocated and
  its `value_length` field is negative. -/
inductive NegativeLength (maxAlloc : Nat) : Bytes → Prop where
  | series (unix value seriesLen : Nat) (rest : Bytes)
      (hneg : toInt64 seriesLen < 0) :
      NegativeLength maxAlloc
        (binaryWrite unix ++ binaryWrite value ++ binaryWrite seriesLen ++ rest)
  | key (unix value count : Nat) (series : Bytes) (pairs : GoMap) (keyLen : Nat)
      (rest : Bytes)
      (hseries : series.length ≤ maxAlloc)
      (hpairs : ∀ kv ∈ pairs, kv.1.length ≤ maxAlloc ∧ kv.2.length ≤ maxAlloc)
      (hcount : (pairs.length : Int) < toInt64 count)
      (hneg : toInt64 keyLen < 0) :
      NegativeLength maxAlloc
        (binaryWrite unix ++ binaryWrite value ++ binaryWrite (ofInt64 series.length)
          ++ binaryWrite count ++ series ++ writeMetadata pairs
          ++ binaryWrite keyLen ++ rest)
  | value (unix value count : Nat) (series : Bytes) (pairs : GoMap)
      (keyLen valueLen : Nat) (rest : Bytes)
      (hseries : series.length ≤ maxAlloc)
      (hpairs : ∀ kv ∈ pairs, kv.1.length ≤ maxAlloc ∧ kv.2.length ≤ maxAlloc)
      (hcount : (pairs.length : Int) < toInt64 count)
      (hkey : 0 ≤ toInt64 keyLen ∧ toInt64 keyLen ≤ (maxAlloc : Int))
      (hneg : toInt64 valueLen < 0) :
      NegativeLength maxAlloc
        (binaryWrite unix ++ binaryWrite value ++ binaryWrite (ofInt64 series.length)
          ++ binaryWrite count ++ series ++ writeMetadata pairs
          ++ binaryWrite keyLen ++ binaryWrite valueLen ++ rest)

/-! ## The wire layout in the words of the specification -/

/-- Spec: a 64 bit integer on the wire, little-endian: byte `i` holds the bits
`8 i .. 8 i + 7` of the two's complement pattern. -/
def int64LE (x : Int) : Bytes :=
  (List.range 8).map fun i =>
    ⟨(x % 18446744073709551616).toNat / 256 ^ i % 256, Nat.mod_lt _ (by decide)⟩

/-- Spec: the 64 bits of the value on the wire, little-endian. -/
def float64LE (bits : Nat) : Bytes :=
  (List.range 8).map fun i => ⟨bits / 256 ^ i % 256, Nat.mod_lt _ (by decide)⟩

/-- Spec: the metadata pairs on the wire: per pair `key_length`,
`value_length`, `key_bytes`, `value_bytes`. -/
def pairsLayout (pairs : GoMap) : Bytes :=
  (pairs.map fun kv =>
    int64LE kv.1.length ++ int64LE kv.2.length ++ kv.1 ++ kv.2).flatten

/-! ## Sample reports -/

/-- The series `"cpu"` with the labels `host = "a"` and `dc = "x"` and the
value `1.0`, at the Unix second 1700000000 (2023-11-14). -/
def cpuReport : Report :=
  { Series := [99, 112, 117]
    Value := 4607182418800017408
    Metadata := [([104, 111, 115, 116], [97]), ([100, 99], [120])]
    Timestamp := timeUnix 1700000000 }

/-- The series `"mem"` without labels, with the value `2.5`, one minute
later. -/
def memReport : Report :=
  { Series := [109, 101, 109]
    Value := 4612811918334230528
    Metadata := []
    Timestamp := timeUnix 1700000060 }

/-- A report with the empty series, no labels and the value `0`. -/
def emptyReport : Report :=
  { Series := [], Value := 0, Metadata := [], Timestamp := timeUnix 0 }

/-- A batch: `cpuReport` with its map visited `dc` first, then `memReport`. -/
def sampleBatch : List (Report × GoMap) :=
  [(cpuReport, [([100, 99], [120]), ([104, 111, 115, 116], [97])]), (memReport, [])]

/-- A report with the one byte series `"a"`. -/
def shortReport : Report :=
  { Series := [97], Value := 0, Metadata := [], Timestamp := timeUnix 1 }

/-- What the decode loop makes of `shortReport` with its last byte cut off. -/
def paddedReport : Report :=
  { Series := [0], Value := 0, Metadata := [], Timestamp := timeUnix 1 }

/-- A header whose `series_length` field holds `-1`: timestamp `1`, value `0`,
series length `0xFFFFFFFFFFFFFFFF`, no metadata. -/
def negativeSeriesLen : Bytes :=
  binaryWrite 1 ++ binaryWrite 0 ++ binaryWrite (ofInt64 (-1)) ++ binaryWrite 0

/-! ## display: the handler of `/` -/

/-- Go `sort.Search(n, f)`, its loop `for i < j` run for at most `fuel`
turns; `none` when the turns run out.  `h := int(uint(i+j) >> 1)` is
`(i + j) / 2`: `i + j` is at most twice the length of a slice. -/
def searchLoop (f : Nat → Bool) : Nat → Nat → Nat → Option Nat
  | 0, i, j => if i < j then none else some i
  | fuel + 1, i, j =>
    if i < j then
      let h := (i + j) / 2
      if !f h then searchLoop f fuel (h + 1) j else searchLoop f fuel i h
    else some i

/-- Go `sort.Search(n, f)`.  The interval `[i, j)` shrinks in every turn, so
`n` turns are enough (`Search_isSome`). -/
def Search (n : Nat) (f : Nat → Bool) : Option Nat := searchLoop f n 0 n

/-- The closure `func(i int) bool { return reports[i].Timestamp.After(startDate) }`.
`sort.Search` calls it below `len(reports)` only; the value given outside is
never used. -/
def afterStart (reports : List Report) (startDate : Time) (i : Nat) : Bool :=
  match reports[i]? with
  | some report => report.Timestamp.After startDate
  | none => false

/-- The closure
`func(i int) bool { return !reports[i].Timestamp.Before(endDate) }`. -/
def notBeforeEnd (reports : List Report) (endDate : Time) (i : Nat) : Bool :=
  match reports[i]? with
  | some report => !report.Timestamp.Before endDate
  | none => false

/-- The lines 72 to 80 of `display/main.go`: the two searches and the slice
`reports[start:end]`, which panics unless `start ≤ end ≤ len(reports)`. -/
def trim (reports : List Report) (startDate endDate : Time) : Outcome :=
  match Search reports.length (afterStart reports startDate),
      Search reports.length (notBeforeEnd reports endDate) with
  | some start, some end_ =>
    if start ≤ end_ ∧ end_ ≤ reports.length then
      Outcome.returned ((reports.take end_).drop start) none
    else Outcome.panicked
  | _, _ => Outcome.unfinished

/-- Go `time.Parse(DayFormat, s)` for a valid date `s`: midnight UTC of that
date, the date given by its number of days since 1970-01-01. -/
def midnight (day : Int) : Time := ⟨day * (24 * Hour)⟩

/-- The lines 44 to 57 of `display/main.go`: the window `(startDate, endDate)`
from the time of the request and the parsed parameters `end` and `start`
(`none` when the query does not have the parameter).  The code goes back
`time.Hour * 24 * 7`, seven days; the comment beside it says two weeks. -/
def window (now : Time) (endParam startParam : Option Time) : Time × Time :=
  let endDate := now
  let startDate := endDate.Add (-Hour * 24 * 7)
  let (endDate, startDate) :=
    match endParam with
    | some parsed =>
      let endDate := parsed.Add (24 * Hour - Second)
      (endDate, endDate.Add (-Hour * 24 * 7))
    | none => (endDate, startDate)
  let startDate :=
    match startParam with
    | some parsed => parsed
    | none => startDate
  (startDate, endDate)

/-! ### Day bucket keys -/

/-- Go `daysBefore`: the days of a common year before the start of a month. -/
def daysBefore : List Nat := [0, 31, 59, 90, 120, 151, 181, 212, 243, 273, 304, 334, 365]

/-- Go `isLeap`. -/
def isLeap (year : Int) : Bool :=
  decide (year % 4 = 0) && (decide (year % 100 ≠ 0) || decide (year % 400 = 0))

/-- Go `t.abs()`: the seconds since the absolute zero year of package `time`
on the clock of a zone `zone` seconds east of UTC, as a `uint64`. -/
def absSeconds (zone : Int) (t : Time) : Nat :=
  ((t.Unix + zone + 9223372028715321600) % 18446744073709551616).toNat

/-- The first half of Go `absDate`: the year and the day within the year. -/
def absYearDay (abs : Nat) : Int × Nat :=
  let d := abs / 86400
  let n := d / 146097
  let y := 400 * n
  let d := d - 146097 * n
  let n := d / 36524
  let n := n - n / 4
  let y := y + 100 * n
  let d := d - 36524 * n
  let n := d / 1461
  let y := y + 4 * n
  let d := d - 1461 * n
  let n := d / 365
  let n := n - n / 4
  let y := y + n
  let d := d - 365 * n
  ((y : Int) + -292277022399, d)

/-- The second half of Go `absDate`: month and day of the month from the day
within the year. -/
def monthDay (leap : Bool) (yday : Nat) : Nat × Nat :=
  if leap && decide (yday = 31 + 29 - 1) then (2, 29)
  else
    let day := if leap && decide (yday > 31 + 29 - 1) then yday - 1 else yday
    let month := day / 31
    let end_ := daysBefore.getD (month + 1) 0
    let (month, begin) :=
      if day ≥ end_ then (month + 1, end_) else (month, daysBefore.getD month 0)
    (month + 1, day - begin + 1)

/-- Go `t.Date()` in a zone: year, month, day. -/
def Time.Date (zone : Int) (t : Time) : Int × Nat × Nat :=
  let yd := absYearDay (absSeconds zone t)
  (yd.1, monthDay (isLeap yd.1) yd.2)

/-- The decimal digits of `u`, least significant first, none for `0`; the
loop `for u > 0 { ...; u /= 10 }` run for at most `fuel` turns. -/
def decimalLE : Nat → Nat → List Nat
  | 0, _ => []
  | fuel + 1, u => if u = 0 then [] else u % 10 :: decimalLE fuel (u / 10)

/-- The byte of a decimal digit. -/
def digitByte (d : Nat) : Byte := ⟨48 + d % 10, by omega⟩

/-- Go `appendInt(b, x, width)` of package `time`: a minus sign for a negative
`x`, then the decimal digits of `|x|`, zero padded to `width`. -/
def appendInt (x : Int) (width : Nat) : Bytes :=
  let u := x.natAbs
  let digits := if u = 0 then [0] else (decimalLE u u).reverse
  (if x < 0 then [45] else [])
    ++ ((List.replicate (width - digits.length) 0 ++ digits).map digitByte)

/-- Go `t.Format(KVDayFormat)` with `KVDayFormat = "2006_01_02"`: the year in
four digits, the month and the day in two, `_` between them. -/
def FormatKVDay (zone : Int) (t : Time) : Bytes :=
  let date := t.Date zone
  appendInt date.1 4 ++ [95] ++ appendInt date.2.1 2 ++ [95] ++ appendInt date.2.2 2

/-- The key `kvKey + "_" + t.Format(KVDayFormat)` of both programs. -/
def bucketKey (kvKey : Bytes) (zone : Int) (t : Time) : Bytes :=
  kvKey ++ [95] ++ FormatKVDay zone t

/-- The calendar day of an instant on the clock of a zone, as the number of
days since 1970-01-01. -/
def localDay (zone : Int) (t : Time) : Int := (t.Unix + zone) / 86400

/-- The instants whose zone clock Go can turn into a date without a wrap of
its 64 bit second count. -/
def Representable (zone : Int) (t : Time) : Prop :=
  -9223372028715321600 ≤ t.Unix + zone ∧ t.Unix + zone < 9223372036854775808

/-! ### Fetch and merge -/

/-- The loop `for d := startDateOnly; !d.After(endDateOnly); d = d.Add(24h)`
of the handler, run for at most `fuel` tests of its condition.  `store key`
is what `FetchData` returns for the key: `none` for an error, else the
reports.  The state is the list `reports` and the days fetched so far. -/
def fetchLoop (store : Bytes → Option (List Report)) (kvKey : Bytes) (zone : Int)
    (endDateOnly : Time) : Nat → Time → List Report × List Time → Option (List Report × List Time)
  | 0, _, _ => none
  | fuel + 1, d, (reports, fetched) =>
    if d.After endDateOnly then some (reports, fetched)
    else
      match store (bucketKey kvKey zone d) with
      | none => fetchLoop store kvKey zone endDateOnly fuel (d.Add (Hour * 24))
          (reports, fetched ++ [d])
      | some reps => fetchLoop store kvKey zone endDateOnly fuel (d.Add (Hour * 24))
          (reports ++ reps, fetched ++ [d])

/-- The lines 59 to 70 of `display/main.go`: the merged list and the days
fetched. -/
def fetchAll (store : Bytes → Option (List Report)) (kvKey : Bytes) (zone : Int)
    (startDate endDate : Time) (fuel : Nat) : Option (List Report × List Time) :=
  let startDateOnly := startDate.Truncate (24 * Hour)
  let endDateOnly := endDate.Truncate (24 * Hour)
  fetchLoop store kvKey zone endDateOnly fuel startDateOnly ([], [])

/-- The handler of `/` up to the slice it hands to `json.Marshal`. -/
def handler (store : Bytes → Option (List Report)) (kvKey : Bytes) (zone : Int)
    (now : Time) (endParam startParam : Option Time) (fuel : Nat) : Outcome :=
  let (startDate, endDate) := window now endParam startParam
  match fetchAll store kvKey zone startDate endDate fuel with
  | none => Outcome.unfinished
  | some (reports, _) => trim reports startDate endDate

/-- A sample report at the Unix second `sec`. -/
def reportAt (sec : Int) : Report :=
  { Series := [116], Value := 0, Metadata := [], Timestamp := timeUnix sec }

/-- The part of a day in the merged list: the reports of its bucket, nothing
when the fetch failed. -/
def contribution (fetched : Option (List Report)) : List Report :=
  match fetched with
  | some reps => reps
  | none => []

/-- Spec: `floor(startDate) + k * 24h`, the `k`-th day of the window. -/
def dayOfWindow (startDate : Time) (k : Nat) : Time :=
  (startDate.Truncate (24 * Hour)).Add ((k : Int) * (24 * Hour))

/-- Spec: the number of steps of 24 hours from `floor(startDate)` to
`floor(endDate)`. -/
def daySteps (startDate endDate : Time) : Nat :=
  (((endDate.Truncate (24 * Hour)).nanos - (startDate.Truncate (24 * Hour)).nanos)
    / (24 * Hour)).toNat

/-- A store with one bucket, of the day 2023-11-14 under the key `t`: a report
at 23:59:58 and a report at 23:59:59 of that day. -/
def sampleStore (key : Bytes) : Option (List Report) :=
  if key = bucketKey [116] 0 (timeUnix 1700000000) then
    some [reportAt 1700006398, reportAt 1700006399]
  else none

/-- A store with the buckets of 2023-11-13 and 2023-11-15 under the key `t`;
the fetch of every other day fails. -/
def gapStore (key : Bytes) : Option (List Report) :=
  if key = bucketKey [116] 0 (timeUnix 1699900000) then some [reportAt 1699900000]
  else if key = bucketKey [116] 0 (timeUnix 1700030000) then
    some [reportAt 1700030000, reportAt 1700030001]
  else none

/-- The number a string of decimal digits denotes. -/
def digitsValue (bs : Bytes) : Nat :=
  bs.foldl (fun acc b => 10 * acc + (b.val - 48)) 0

/-- The integer a string written by `appendInt` denotes. -/
def parseInt (bs : Bytes) : Int :=
  match bs with
  | [] => 0
  | b :: rest => if b.val = 45 then -(digitsValue rest : Int) else (digitsValue (b :: rest) : Int)

/-! ## Theorems -/

/-! ### Bytes -/

theorem leBytes_length (n u : Nat) : (leBytes n u).length = n := by
  induction n generalizing u with
  | zero => rfl
  | succ n ih => simp [leBytes, ih]

theorem leNat_leBytes (n u : Nat) : leNat (leBytes n u) = u % 256 ^ n := by
  induction n generalizing u with
  | zero => simp [leBytes, leNat, Nat.mod_one]
  | succ n ih =>
    simp only [leBytes, leNat, ih]
    rw [pow_succ, mul_comm (256 ^ n) 256, Nat.mod_mul]

theorem binaryWrite_length (u : Nat) : (binaryWrite u).length = 8 :=
  leBytes_length 8 u

theorem leNat_binaryWrite (u : Nat) :
    leNat (binaryWrite u) = u % 18446744073709551616 := by
  unfold binaryWrite
  rw [leNat_leBytes]
  norm_num

theorem toInt64_ofInt64 (x : Int) (hlo : -9223372036854775808 ≤ x)
    (hhi : x < 9223372036854775808) : toInt64 (ofInt64 x) = x := by
  unfold toInt64 ofInt64
  split <;> omega

theorem toInt64_ofInt64_length (n : Nat) (h : n < 9223372036854775808) :
    toInt64 (ofInt64 (n : Int) % 18446744073709551616) = (n : Int) := by
  unfold toInt64 ofInt64
  split <;> omega

/-- A complete `binary.Read`: the eight bytes written come back and the reader
stands right after them. -/
theorem binaryRead_binaryWrite (u old : Nat) (rest : Bytes) :
    binaryRead (binaryWrite u ++ rest) old = (u % 18446744073709551616, rest) := by
  unfold binaryRead
  have h8 := binaryWrite_length u
  rw [if_pos (by simp [h8]), List.take_left' h8, List.drop_left' h8, leNat_binaryWrite]

/-- The same read on the first `j` bytes only: it succeeds when the field is
whole, and else it yields the old value and exhausts the reader. -/
theorem binaryRead_take (j u old : Nat) (rest : Bytes) :
    binaryRead ((binaryWrite u ++ rest).take j) old
      = (if 8 ≤ j then u % 18446744073709551616 else old, rest.take (j - 8)) := by
  have h8 := binaryWrite_length u
  by_cases hj : 8 ≤ j
  · rw [List.take_append_eq_append_take, h8, List.take_of_length_le (by omega), if_pos hj]
    exact binaryRead_binaryWrite u old _
  · unfold binaryRead
    have hlen : ¬ 8 ≤ ((binaryWrite u ++ rest).take j).length := by
      simp only [List.length_take, List.length_append, h8]
      omega
    rw [if_neg hlen, if_neg hj]
    have : j - 8 = 0 := by omega
    simp [this]

theorem binaryRead_nil (old : Nat) : binaryRead [] old = (old, []) := by
  simp [binaryRead]

theorem readerRead_append (s rest : Bytes) :
    readerRead (s ++ rest) s.length = (s, rest) := by
  simp [readerRead]

theorem readerRead_nil (n : Nat) : (readerRead [] n).2 = [] := by
  simp [readerRead]

/-- A `reader.Read` on the first `j` bytes only leaves what is left of those
`j` bytes after the field. -/
theorem readerRead_take (j : Nat) (s rest : Bytes) :
    (readerRead ((s ++ rest).take j) s.length).2 = rest.take (j - s.length) := by
  simp only [readerRead]
  rw [List.take_append_eq_append_take, List.drop_append_eq_append_drop]
  have h1 : List.drop s.length (List.take j s) = [] := by
    apply List.drop_of_length_le
    simp
  rw [h1, List.nil_append]
  have h2 : (List.take j s).length = min j s.length := List.length_take j s
  by_cases hj : s.length ≤ j
  · rw [h2, min_eq_right hj]
    simp
  · have h3 : j - s.length = 0 := by omega
    simp [h3]

theorem makeBytes_length (maxAlloc n : Nat) (h : n ≤ maxAlloc) :
    makeBytes maxAlloc (n : Int) = some n := by
  unfold makeBytes
  rw [if_pos ⟨by omega, by omega⟩]
  simp

theorem makeBytes_neg (maxAlloc : Nat) (n : Int) (h : n < 0) :
    makeBytes maxAlloc n = none := by
  unfold makeBytes
  rw [if_neg (by omega)]

/-! ### Maps -/

theorem mapSet_fresh (m : GoMap) (k v : Bytes) (h : k ∉ m.map Prod.fst) :
    mapSet m k v = m ++ [(k, v)] := by
  induction m with
  | nil => rfl
  | cons e m ih =>
    obtain ⟨k', v'⟩ := e
    simp only [List.map_cons, List.mem_cons, not_or] at h
    simp only [mapSet, List.cons_append]
    rw [if_neg (fun hk => h.1 hk.symm), ih h.2]

theorem foldl_mapSet_nodup (order m : GoMap)
    (h : ((m ++ order).map Prod.fst).Nodup) :
    order.foldl (fun acc kv => mapSet acc kv.1 kv.2) m = m ++ order := by
  induction order generalizing m with
  | nil => simp
  | cons e order ih =>
    obtain ⟨k, v⟩ := e
    have hk : k ∉ m.map Prod.fst := by
      intro hmem
      rw [List.map_append, List.nodup_append] at h
      exact h.2.2 hmem (by simp)
    simp only [List.foldl_cons]
    rw [mapSet_fresh m k v hk, ih]
    · simp
    · simpa using h

theorem mapGet_eq_some_iff (m : GoMap) (h : (m.map Prod.fst).Nodup) (k v : Bytes) :
    mapGet m k = some v ↔ (k, v) ∈ m := by
  induction m with
  | nil => simp [mapGet]
  | cons e m ih =>
    obtain ⟨k', v'⟩ := e
    simp only [List.map_cons, List.nodup_cons] at h
    simp only [mapGet, List.mem_cons, Prod.mk.injEq]
    by_cases hk : k' = k
    · subst hk
      rw [if_pos rfl]
      constructor
      · intro hv
        left
        exact ⟨rfl, (Option.some.inj hv).symm⟩
      · rintro (⟨-, hv⟩ | hmem)
        · rw [hv]
        · exact absurd (List.mem_map_of_mem Prod.fst hmem) h.1
    · rw [if_neg hk, ih h.2]
      constructor
      · exact Or.inr
      · rintro (⟨hk', -⟩ | hmem)
        · exact absurd hk'.symm hk
        · exact hmem

/-- Two listings of the entries of one map answer every lookup alike. -/
theorem mapGet_perm (a b : GoMap) (hp : a.Perm b) (h : (b.map Prod.fst).Nodup)
    (k : Bytes) : mapGet a k = mapGet b k := by
  have ha : (a.map Prod.fst).Nodup := ((hp.map Prod.fst).nodup_iff).mpr h
  cases hb : mapGet b k with
  | some v =>
    rw [mapGet_eq_some_iff b h] at hb
    rw [mapGet_eq_some_iff a ha]
    exact hp.mem_iff.mpr hb
  | none =>
    cases hq : mapGet a k with
    | none => rfl
    | some v =>
      rw [mapGet_eq_some_iff a ha] at hq
      have := (mapGet_eq_some_iff b h k v).mpr (hp.mem_iff.mp hq)
      rw [hb] at this
      cases this

theorem received_same (maxAlloc : Nat) (p : Report × GoMap) (h : WellFormed maxAlloc p) :
    Report.same p.1 (received p) :=
  ⟨rfl, rfl, rfl, h.order_perm.length_eq.symm,
    fun k => (mapGet_perm p.2 p.1.Metadata h.order_perm h.keys_nodup k).symm⟩

/-! ### One record, written and read back -/

theorem readMetadata_writeMetadata (maxAlloc : Nat) (hcap : maxAlloc < 9223372036854775808)
    (order : GoMap)
    (hlen : ∀ kv ∈ order, kv.1.length ≤ maxAlloc ∧ kv.2.length ≤ maxAlloc)
    (rest : Bytes) (m : GoMap) :
    readMetadata maxAlloc order.length (writeMetadata order ++ rest) m
      = some (order.foldl (fun acc kv => mapSet acc kv.1 kv.2) m, rest) := by
  induction order generalizing m with
  | nil => simp [readMetadata, writeMetadata]
  | cons e order ih =>
    obtain ⟨k, v⟩ := e
    have hk : k.length ≤ maxAlloc := (hlen (k, v) (by simp)).1
    have hv : v.length ≤ maxAlloc := (hlen (k, v) (by simp)).2
    simp only [List.length_cons, readMetadata, writeMetadata, List.append_assoc,
      binaryRead_binaryWrite]
    rw [toInt64_ofInt64_length k.length (by omega), toInt64_ofInt64_length v.length (by omega),
      makeBytes_length _ _ hk, makeBytes_length _ _ hv]
    simp only [readerRead_append, List.foldl_cons]
    exact ih (fun kv hkv => hlen kv (List.mem_cons_of_mem _ hkv)) _

theorem timeUnix_Unix (t : Time) (h : t.nanos % 1000000000 = 0) : timeUnix t.Unix = t := by
  cases t with
  | mk n =>
    simp only [timeUnix, Time.Unix, Time.mk.injEq] at *
    omega

/-- One turn of the decode loop on a buffer that starts with the bytes of a
well-formed report reads that report and stops right after its bytes. -/
theorem decodeRecord_ReportTemperature (maxAlloc : Nat)
    (hcap : maxAlloc < 9223372036854775808) (p : Report × GoMap)
    (h : WellFormed maxAlloc p) (rest : Bytes) :
    decodeRecord maxAlloc (ReportTemperature p.1 p.2 ++ rest) = some (received p, rest) := by
  have hord : ∀ kv ∈ p.2, kv.1.length ≤ maxAlloc ∧ kv.2.length ≤ maxAlloc :=
    fun kv hkv => h.entry_len kv (h.order_perm.mem_iff.mp hkv)
  have hnodup : (([] ++ p.2 : GoMap).map Prod.fst).Nodup := by
    simpa using ((h.order_perm.map Prod.fst).nodup_iff).mpr h.keys_nodup
  have hcount : (toInt64 (ofInt64 (p.1.Metadata.length : Int) % 18446744073709551616)).toNat
      = p.2.length := by
    rw [toInt64_ofInt64_length _ h.count, h.order_perm.length_eq]
    simp
  have hunix : toInt64 (ofInt64 p.1.Timestamp.Unix % 18446744073709551616)
      = p.1.Timestamp.Unix := by
    have := toInt64_ofInt64 _ h.unix_lo h.unix_hi
    unfold toInt64 ofInt64 at *
    split <;> omega
  simp only [decodeRecord, ReportTemperature, List.append_assoc, binaryRead_binaryWrite]
  rw [toInt64_ofInt64_length _ (Nat.lt_of_le_of_lt h.series_len hcap),
    makeBytes_length _ _ h.series_len]
  simp only [readerRead_append]
  rw [hcount, readMetadata_writeMetadata maxAlloc hcap p.2 hord rest [],
    foldl_mapSet_nodup p.2 [] hnodup, hunix, timeUnix_Unix _ h.whole_second,
    Nat.mod_eq_of_lt h.value_bits]
  rfl

/-! ### The decode loop ends -/

theorem binaryRead_length_le (reader : Bytes) (old : Nat) :
    (binaryRead reader old).2.length ≤ reader.length := by
  unfold binaryRead
  split <;> simp

theorem binaryRead_length_lt (reader : Bytes) (old : Nat) (h : 0 < reader.length) :
    (binaryRead reader old).2.length < reader.length := by
  unfold binaryRead
  split
  · simp only [List.length_drop]
    omega
  · simpa using h

theorem readerRead_length_le (reader : Bytes) (n : Nat) :
    (readerRead reader n).2.length ≤ reader.length := by
  simp [readerRead]

theorem readMetadata_length_le (maxAlloc n : Nat) (reader : Bytes) (m m' : GoMap)
    (reader' : Bytes) (h : readMetadata maxAlloc n reader m = some (m', reader')) :
    reader'.length ≤ reader.length := by
  induction n generalizing reader m with
  | zero =>
    simp only [readMetadata, Option.some.injEq, Prod.mk.injEq] at h
    rw [← h.2]
  | succ n ih =>
    simp only [readMetadata] at h
    split at h
    · rename_i kl vl _ _
      have h1 := ih _ _ h
      have h2 := readerRead_length_le
        (readerRead (binaryRead (binaryRead reader 0).2 0).2 kl).2 vl
      have h3 := readerRead_length_le (binaryRead (binaryRead reader 0).2 0).2 kl
      have h4 := binaryRead_length_le (binaryRead reader 0).2 0
      have h5 := binaryRead_length_le reader 0
      omega
    · cases h

/-- A turn of the decode loop on a reader that is not at its end takes at
least one byte. -/
theorem decodeRecord_length_lt (maxAlloc : Nat) (reader : Bytes) (report : Report)
    (reader' : Bytes) (hpos : 0 < reader.length)
    (h : decodeRecord maxAlloc reader = some (report, reader')) :
    reader'.length < reader.length := by
  simp only [decodeRecord] at h
  split at h
  · cases h
  · split at h
    · cases h
    · rename_i n _ _ md rd hmd
      simp only [Option.some.injEq, Prod.mk.injEq] at h
      have h1 := readMetadata_length_le _ _ _ _ _ _ hmd
      have h2 := readerRead_length_le
        (binaryRead (binaryRead (binaryRead (binaryRead reader 0).2 0).2 0).2 0).2 n
      have h3 := binaryRead_length_le (binaryRead (binaryRead (binaryRead reader 0).2 0).2 0).2 0
      have h4 := binaryRead_length_le (binaryRead (binaryRead reader 0).2 0).2 0
      have h5 := binaryRead_length_le (binaryRead reader 0).2 0
      have h6 := binaryRead_length_lt reader 0 hpos
      rw [← h.2]
      omega

theorem decodeLoop_succ (maxAlloc fuel : Nat) (reader : Bytes) (reports : List Report)
    (h : reader.length ≤ fuel) :
    decodeLoop maxAlloc (fuel + 1) reader reports = decodeLoop maxAlloc fuel reader reports := by
  induction fuel generalizing reader reports with
  | zero =>
    have : reader = [] := List.eq_nil_of_length_eq_zero (by omega)
    subst this
    simp [decodeLoop]
  | succ fuel ih =>
    rw [decodeLoop, decodeLoop.eq_2]
    by_cases hpos : reader.length > 0
    · rw [if_pos hpos, if_pos hpos]
      cases hrec : decodeRecord maxAlloc reader with
      | none => rfl
      | some res =>
        obtain ⟨report, reader'⟩ := res
        have := decodeRecord_length_lt _ _ _ _ hpos hrec
        exact ih reader' _ (by omega)
    · rw [if_neg hpos, if_neg hpos]

/-- More turns than the reader has bytes change nothing. -/
theorem decodeLoop_fuel (maxAlloc fuel : Nat) (reader : Bytes) (reports : List Report)
    (h : reader.length ≤ fuel) :
    decodeLoop maxAlloc fuel reader reports
      = decodeLoop maxAlloc reader.length reader reports := by
  obtain ⟨d, rfl⟩ := Nat.exists_eq_add_of_le h
  induction d with
  | zero => rfl
  | succ d ih =>
    rw [← Nat.add_assoc, decodeLoop_succ _ _ _ _ (by omega)]
    exact ih (by omega)

theorem decodeLoop_nil (maxAlloc fuel : Nat) (reports : List Report) :
    decodeLoop maxAlloc fuel [] reports = Outcome.returned reports none := by
  cases fuel <;> simp [decodeLoop]

theorem decodeLoop_step (maxAlloc : Nat) (reader reader' : Bytes) (report : Report)
    (reports : List Report) (hpos : 0 < reader.length)
    (h : decodeRecord maxAlloc reader = some (report, reader')) :
    decodeLoop maxAlloc reader.length reader reports
      = decodeLoop maxAlloc reader'.length reader' (reports ++ [report]) := by
  have hlt := decodeRecord_length_lt _ _ _ _ hpos h
  obtain ⟨n, hn⟩ : ∃ n, reader.length = n + 1 := ⟨reader.length - 1, by omega⟩
  rw [hn, decodeLoop, if_pos (by omega), h]
  exact decodeLoop_fuel _ _ _ _ (by omega)

theorem decodeLoop_panic (maxAlloc : Nat) (reader : Bytes) (reports : List Report)
    (hpos : 0 < reader.length) (h : decodeRecord maxAlloc reader = none) :
    decodeLoop maxAlloc reader.length reader reports = Outcome.panicked := by
  obtain ⟨n, hn⟩ : ∃ n, reader.length = n + 1 := ⟨reader.length - 1, by omega⟩
  rw [hn, decodeLoop, if_pos (by omega), h]

/-- The decode loop never runs out of turns: `FetchData` returns or panics. -/
theorem FetchData_finishes (maxAlloc : Nat) (data : Bytes) :
    FetchData maxAlloc data ≠ Outcome.unfinished := by
  unfold FetchData
  suffices H : ∀ (n : Nat) (reader : Bytes) (reports : List Report), reader.length ≤ n →
      decodeLoop maxAlloc reader.length reader reports ≠ Outcome.unfinished from
    H data.length data [] (Nat.le_refl _)
  intro n
  induction n with
  | zero =>
    intro reader reports h
    have : reader = [] := List.eq_nil_of_length_eq_zero (by omega)
    subst this
    simp [decodeLoop]
  | succ n ih =>
    intro reader reports h
    by_cases hpos : 0 < reader.length
    · cases hrec : decodeRecord maxAlloc reader with
      | none => rw [decodeLoop_panic _ _ _ hpos hrec]; simp
      | some res =>
        obtain ⟨report, reader'⟩ := res
        rw [decodeLoop_step _ _ _ _ _ hpos hrec]
        have := decodeRecord_length_lt _ _ _ _ hpos hrec
        exact ih _ _ (by omega)
    · have : reader = [] := List.eq_nil_of_length_eq_zero (by omega)
      subst this
      simp [decodeLoop]

/-! ### Records back to back -/

theorem ReportTemperature_length_pos (payload : Report) (order : GoMap) (rest : Bytes) :
    0 < (ReportTemperature payload order ++ rest).length := by
  simp only [ReportTemperature, List.length_append, binaryWrite_length]
  omega

/-- The decode loop reads a run of well-formed records one by one and goes on
with whatever follows them. -/
theorem decodeLoop_appendAll (maxAlloc : Nat) (hcap : maxAlloc < 9223372036854775808)
    (batch : List (Report × GoMap)) (hwf : ∀ p ∈ batch, WellFormed maxAlloc p)
    (rest : Bytes) (reports : List Report) :
    decodeLoop maxAlloc (appendAll batch ++ rest).length (appendAll batch ++ rest) reports
      = decodeLoop maxAlloc rest.length rest (reports ++ batch.map received) := by
  induction batch generalizing reports with
  | nil => simp [appendAll]
  | cons p batch ih =>
    have hp := hwf p (List.mem_cons_self _ _)
    have hrec := decodeRecord_ReportTemperature maxAlloc hcap p hp (appendAll batch ++ rest)
    have hpos := ReportTemperature_length_pos p.1 p.2 (appendAll batch ++ rest)
    have heq : appendAll (p :: batch) ++ rest
        = ReportTemperature p.1 p.2 ++ (appendAll batch ++ rest) := by
      simp [appendAll]
    rw [heq, decodeLoop_step _ _ _ _ _ hpos hrec,
      ih (fun q hq => hwf q (List.mem_cons_of_mem _ hq))]
    simp

theorem FetchData_appendAll (maxAlloc : Nat) (hcap : maxAlloc < 9223372036854775808)
    (batch : List (Report × GoMap)) (hwf : ∀ p ∈ batch, WellFormed maxAlloc p) :
    FetchData maxAlloc (appendAll batch) = Outcome.returned (batch.map received) none := by
  have h := decodeLoop_appendAll maxAlloc hcap batch hwf [] []
  simp only [List.append_nil, List.nil_append] at h
  unfold FetchData
  rw [h, decodeLoop_nil]

theorem forall₂_same_received (maxAlloc : Nat) (batch : List (Report × GoMap))
    (hwf : ∀ p ∈ batch, WellFormed maxAlloc p) :
    List.Forall₂ Report.same (batch.map Prod.fst) (batch.map received) := by
  induction batch with
  | nil => exact List.Forall₂.nil
  | cons p batch ih =>
    exact List.Forall₂.cons (received_same maxAlloc p (hwf p (List.mem_cons_self _ _)))
      (ih (fun q hq => hwf q (List.mem_cons_of_mem _ hq)))

/-! ### Truncated records -/

theorem readerRead_take_pair (j : Nat) (s rest : Bytes) :
    readerRead ((s ++ rest).take j) s.length
      = ((readerRead ((s ++ rest).take j) s.length).1, rest.take (j - s.length)) :=
  Prod.ext rfl (readerRead_take j s rest)

theorem readerRead_nil_pair (n : Nat) : readerRead [] n = ((readerRead [] n).1, []) :=
  Prod.ext rfl (readerRead_nil n)

theorem makeBytes_zero (maxAlloc : Nat) : makeBytes maxAlloc (toInt64 0) = some 0 := by
  simp [makeBytes, toInt64]

/-- On the reader at its end the metadata loop reads empty keys and values,
stays at the end and does not panic. -/
theorem readMetadata_nil (maxAlloc n : Nat) (m : GoMap) :
    ∃ m', readMetadata maxAlloc n [] m = some (m', []) := by
  induction n generalizing m with
  | zero => exact ⟨m, rfl⟩
  | succ n ih =>
    simp only [readMetadata, binaryRead_nil, makeBytes_zero]
    rw [readerRead_nil_pair 0]
    exact ih _

/-- The metadata loop on the first `j` bytes of well-formed entries uses up
all of them and does not panic. -/
theorem readMetadata_take (maxAlloc : Nat) (hcap : maxAlloc < 9223372036854775808)
    (order : GoMap)
    (hlen : ∀ kv ∈ order, kv.1.length ≤ maxAlloc ∧ kv.2.length ≤ maxAlloc)
    (j : Nat) (m : GoMap) :
    ∃ m', readMetadata maxAlloc order.length ((writeMetadata order).take j) m
      = some (m', []) := by
  induction order generalizing j m with
  | nil => exact ⟨m, by simp [readMetadata, writeMetadata]⟩
  | cons e order ih =>
    obtain ⟨k, v⟩ := e
    have hk : k.length ≤ maxAlloc := (hlen (k, v) (by simp)).1
    have hv : v.length ≤ maxAlloc := (hlen (k, v) (by simp)).2
    have ih' := ih (fun kv hkv => hlen kv (List.mem_cons_of_mem _ hkv))
    simp only [List.length_cons, readMetadata, writeMetadata, List.append_assoc,
      binaryRead_take]
    by_cases h16 : 16 ≤ j
    · have h8 : 8 ≤ j := by omega
      have h8' : 8 ≤ j - 8 := by omega
      simp only [h8, h8', if_true]
      rw [toInt64_ofInt64_length k.length (by omega),
        toInt64_ofInt64_length v.length (by omega),
        makeBytes_length _ _ hk, makeBytes_length _ _ hv]
      simp only []
      rw [readerRead_take_pair]
      simp only []
      rw [readerRead_take_pair]
      exact ih' _ _
    · have h0 : j - 8 - 8 = 0 := by omega
      have h8' : ¬ 8 ≤ j - 8 := by omega
      simp only [h0, h8', if_false, List.take_zero, makeBytes_zero]
      by_cases h8 : 8 ≤ j
      · simp only [h8, if_true]
        rw [toInt64_ofInt64_length k.length (by omega), makeBytes_length _ _ hk]
        simp only []
        rw [readerRead_nil_pair k.length]
        simp only []
        rw [readerRead_nil_pair 0]
        have := ih' 0
        simp only [List.take_zero] at this
        exact this _
      · simp only [h8, if_false, makeBytes_zero]
        rw [readerRead_nil_pair 0]
        have := ih' 0
        simp only [List.take_zero] at this
        exact this _

/-- One turn of the decode loop on the first `j` bytes of a well-formed record
uses up all of them and does not panic: it yields a report. -/
theorem decodeRecord_take (maxAlloc : Nat) (hcap : maxAlloc < 9223372036854775808)
    (p : Report × GoMap) (h : WellFormed maxAlloc p) (j : Nat) :
    ∃ report, decodeRecord maxAlloc ((ReportTemperature p.1 p.2).take j)
      = some (report, []) := by
  have hord : ∀ kv ∈ p.2, kv.1.length ≤ maxAlloc ∧ kv.2.length ≤ maxAlloc :=
    fun kv hkv => h.entry_len kv (h.order_perm.mem_iff.mp hkv)
  have hcount : (toInt64 (ofInt64 (p.1.Metadata.length : Int) % 18446744073709551616)).toNat
      = p.2.length := by
    rw [toInt64_ofInt64_length _ h.count, h.order_perm.length_eq]
    simp
  simp only [decodeRecord, ReportTemperature, List.append_assoc, binaryRead_take]
  by_cases h32 : 32 ≤ j
  · have a1 : 8 ≤ j - 8 - 8 := by omega
    have a2 : 8 ≤ j - 8 - 8 - 8 := by omega
    simp only [a1, a2, if_true]
    rw [toInt64_ofInt64_length _ (Nat.lt_of_le_of_lt h.series_len hcap),
      makeBytes_length _ _ h.series_len]
    simp only []
    rw [readerRead_take_pair]
    simp only [hcount]
    obtain ⟨m', hm'⟩ := readMetadata_take maxAlloc hcap p.2 hord
      (j - 8 - 8 - 8 - 8 - p.1.Series.length) []
    rw [hm']
    exact ⟨_, rfl⟩
  · have a0 : j - 8 - 8 - 8 - 8 = 0 := by omega
    have a2 : ¬ 8 ≤ j - 8 - 8 - 8 := by omega
    have z : (toInt64 0).toNat = 0 := by simp [toInt64]
    simp only [a0, a2, if_false, List.take_zero, z]
    by_cases h24 : 8 ≤ j - 8 - 8
    · simp only [h24, if_true]
      rw [toInt64_ofInt64_length _ (Nat.lt_of_le_of_lt h.series_len hcap),
        makeBytes_length _ _ h.series_len]
      simp only []
      rw [readerRead_nil_pair]
      exact ⟨_, rfl⟩
    · simp only [h24, if_false, makeBytes_zero]
      rw [readerRead_nil_pair]
      exact ⟨_, rfl⟩

theorem ReportTemperature_length (payload : Report) (order : GoMap) :
    (ReportTemperature payload order).length
      = 32 + payload.Series.length + (writeMetadata order).length := by
  simp only [ReportTemperature, List.length_append, binaryWrite_length]

theorem appendAll_append (a b : List (Report × GoMap)) :
    appendAll (a ++ b) = appendAll a ++ appendAll b := by
  induction a with
  | nil => rfl
  | cons p a ih => simp [appendAll, ih]

/-! ### C1, C3: round trip and concatenation -/

/-- C1 (round trip): for every batch of well-formed reports (timestamps at
whole seconds, any series and metadata, the empty batch included) and every
iteration order of each metadata map, the decode loop of `FetchData` on the
buffers of `ReportTemperature` laid back to back returns, without an error,
a list of the same length whose reports are in order the same as the ones
sent: same series, same 64 bit value, same metadata mapping, same instant. -/
theorem FetchData_roundtrip (maxAlloc : Nat) (hcap : maxAlloc < 9223372036854775808)
    (batch : List (Report × GoMap)) (hwf : ∀ p ∈ batch, WellFormed maxAlloc p) :
    ∃ reports, FetchData maxAlloc (appendAll batch) = Outcome.returned reports none
      ∧ reports.length = batch.length
      ∧ List.Forall₂ Report.same (batch.map Prod.fst) reports :=
  ⟨batch.map received, FetchData_appendAll maxAlloc hcap batch hwf, by simp,
    forall₂_same_received maxAlloc batch hwf⟩

theorem FetchData_roundtrip_witness :
    ∃ reports, FetchData 65536 (appendAll (sampleBatch ++ [(emptyReport, [])]))
        = Outcome.returned reports none
      ∧ reports.length = (sampleBatch ++ [(emptyReport, [])]).length
      ∧ List.Forall₂ Report.same ((sampleBatch ++ [(emptyReport, [])]).map Prod.fst) reports :=
  FetchData_roundtrip 65536 (by decide) (sampleBatch ++ [(emptyReport, [])]) (by
    intro p hp
    simp only [sampleBatch, List.cons_append, List.nil_append, List.mem_cons,
      List.mem_singleton, List.not_mem_nil, or_false] at hp
    rcases hp with rfl | rfl | rfl
    all_goals exact ⟨by decide, by decide, by decide, by decide, by decide, by decide,
      by decide, by decide, by decide⟩)

/-- C3 (concatenation): for all batches `a` and `b` of well-formed reports,
decoding the bytes of `a` followed by the bytes of `b` yields the reports of
`a` followed by the reports of `b`, the same as the ones sent; and one turn of
the decode loop on the record of a report `p` of `a ++ b` takes exactly the
bytes of that record, whatever bytes `rest` follow it. -/
theorem FetchData_concat (maxAlloc : Nat) (hcap : maxAlloc < 9223372036854775808)
    (a b : List (Report × GoMap)) (ha : ∀ p ∈ a, WellFormed maxAlloc p)
    (hb : ∀ p ∈ b, WellFormed maxAlloc p)
    (p : Report × GoMap) (hp : p ∈ a ++ b) (rest : Bytes) :
    ∃ ra rb, FetchData maxAlloc (appendAll a) = Outcome.returned ra none
      ∧ FetchData maxAlloc (appendAll b) = Outcome.returned rb none
      ∧ FetchData maxAlloc (appendAll a ++ appendAll b) = Outcome.returned (ra ++ rb) none
      ∧ List.Forall₂ Report.same ((a ++ b).map Prod.fst) (ra ++ rb)
      ∧ decodeRecord maxAlloc (ReportTemperature p.1 p.2 ++ rest) = some (received p, rest) := by
  have hab : ∀ p ∈ a ++ b, WellFormed maxAlloc p := by
    intro p hp
    rcases List.mem_append.mp hp with h | h
    · exact ha p h
    · exact hb p h
  refine ⟨a.map received, b.map received, FetchData_appendAll maxAlloc hcap a ha,
    FetchData_appendAll maxAlloc hcap b hb, ?_, ?_, ?_⟩
  · rw [← appendAll_append, FetchData_appendAll maxAlloc hcap (a ++ b) hab, List.map_append]
  · rw [← List.map_append]
    exact forall₂_same_received maxAlloc (a ++ b) hab
  · exact decodeRecord_ReportTemperature maxAlloc hcap p (hab p hp) rest

theorem FetchData_concat_witness :
    ∃ ra rb, FetchData 65536 (appendAll sampleBatch) = Outcome.returned ra none
      ∧ FetchData 65536 (appendAll [(emptyReport, [])]) = Outcome.returned rb none
      ∧ FetchData 65536 (appendAll sampleBatch ++ appendAll [(emptyReport, [])])
          = Outcome.returned (ra ++ rb) none
      ∧ List.Forall₂ Report.same ((sampleBatch ++ [(emptyReport, [])]).map Prod.fst) (ra ++ rb)
      ∧ decodeRecord 65536 (ReportTemperature memReport [] ++ [1, 2, 3])
          = some (received (memReport, []), [1, 2, 3]) :=
  FetchData_concat 65536 (by decide) sampleBatch [(emptyReport, [])]
    (by
      intro p hp
      simp only [sampleBatch, List.mem_cons, List.mem_singleton, List.not_mem_nil,
        or_false] at hp
      rcases hp with rfl | rfl
      all_goals exact ⟨by decide, by decide, by decide, by decide, by decide, by decide,
        by decide, by decide, by decide⟩)
    (by
      intro p hp
      simp only [List.mem_singleton] at hp
      subst hp
      exact ⟨by decide, by decide, by decide, by decide, by decide, by decide,
        by decide, by decide, by decide⟩)
    (memReport, []) (by decide) [1, 2, 3]

/-! ### C2: truncated buffers -/

/-- C2, as stated, fails: the 33 bytes of `shortReport` cut to 32 make the
decode loop return, with a nil error, one report whose series is a zero byte
in place of `"a"`. -/
theorem truncated_record_no_error :
    (ReportTemperature shortReport []).length = 33
      ∧ FetchData 65536 ((ReportTemperature shortReport []).take 32)
          = Outcome.returned [paddedReport] none
      ∧ paddedReport ≠ shortReport := by
  decide

/-- C2, amended: let `B` be the bytes of the well-formed reports
`batch ++ p :: later` and cut `B` inside the record of `p`, `j` bytes into it
with `0 < j < L`, `L` the length of that record.  The decode loop of
`FetchData` then returns no error: it returns, with a nil error, the reports
of `batch` followed by exactly one more report, read from the `j` bytes that
are left of the record of `p`. -/
theorem FetchData_truncated (maxAlloc : Nat) (hcap : maxAlloc < 9223372036854775808)
    (batch later : List (Report × GoMap)) (p : Report × GoMap)
    (hbatch : ∀ q ∈ batch, WellFormed maxAlloc q) (hp : WellFormed maxAlloc p)
    (j : Nat) (hpos : 0 < j) (hlt : j < (ReportTemperature p.1 p.2).length) :
    ∃ cutReport,
      FetchData maxAlloc
          ((appendAll (batch ++ p :: later)).take ((appendAll batch).length + j))
        = Outcome.returned (batch.map received ++ [cutReport]) none := by
  have hcut : (appendAll (batch ++ p :: later)).take ((appendAll batch).length + j)
      = appendAll batch ++ (ReportTemperature p.1 p.2).take j := by
    rw [appendAll_append, List.take_append_eq_append_take,
      List.take_of_length_le (Nat.le_add_right _ _)]
    congr 1
    have h0 : (appendAll batch).length + j - (appendAll batch).length = j := by omega
    rw [h0]
    simp only [appendAll]
    rw [List.take_append_eq_append_take]
    have h1 : j - (ReportTemperature p.1 p.2).length = 0 := by omega
    rw [h1]
    simp
  obtain ⟨g, hg⟩ := decodeRecord_take maxAlloc hcap p hp j
  have hlen : 0 < ((ReportTemperature p.1 p.2).take j).length := by
    rw [List.length_take]
    omega
  refine ⟨g, ?_⟩
  unfold FetchData
  rw [hcut, decodeLoop_appendAll maxAlloc hcap batch hbatch,
    decodeLoop_step maxAlloc _ _ _ _ hlen hg, decodeLoop_nil]
  simp

theorem FetchData_truncated_witness :
    ∃ cutReport,
      FetchData 65536
          ((appendAll (sampleBatch ++ (shortReport, []) :: [(emptyReport, [])])).take
            ((appendAll sampleBatch).length + 32))
        = Outcome.returned (sampleBatch.map received ++ [cutReport]) none :=
  FetchData_truncated 65536 (by decide) sampleBatch [(emptyReport, [])] (shortReport, [])
    (by
      intro p hp
      simp only [sampleBatch, List.mem_cons, List.mem_singleton, List.not_mem_nil,
        or_false] at hp
      rcases hp with rfl | rfl
      all_goals exact ⟨by decide, by decide, by decide, by decide, by decide, by decide,
        by decide, by decide, by decide⟩)
    ⟨by decide, by decide, by decide, by decide, by decide, by decide, by decide, by decide,
      by decide⟩
    32 (by decide) (by decide)

/-! ### C5: negative lengths -/

theorem toInt64_ofInt64_mod (x : Int) (hlo : -9223372036854775808 ≤ x)
    (hhi : x < 9223372036854775808) :
    toInt64 (ofInt64 x % 18446744073709551616) = x := by
  unfold toInt64 ofInt64
  split <;> omega

theorem toInt64_mod (u : Nat) : toInt64 (u % 18446744073709551616) = toInt64 u := by
  unfold toInt64
  rw [Nat.mod_mod]

theorem decodeLoop_no_error (maxAlloc fuel : Nat) (reader : Bytes) (reports out : List Report)
    (e : String) : decodeLoop maxAlloc fuel reader reports ≠ Outcome.returned out (some e) := by
  induction fuel generalizing reader reports with
  | zero =>
    simp only [decodeLoop]
    split <;> simp
  | succ fuel ih =>
    simp only [decodeLoop]
    split
    · split
      · simp
      · exact ih _ _
    · simp

/-- The metadata loop reads sound pairs and then goes on with what follows
them: when its next turn panics there, it panics. -/
theorem readMetadata_panic_after (maxAlloc : Nat) (hcap : maxAlloc < 9223372036854775808)
    (pairs : GoMap)
    (hlen : ∀ kv ∈ pairs, kv.1.length ≤ maxAlloc ∧ kv.2.length ≤ maxAlloc)
    (more : Nat) (bad : Bytes)
    (hbad : ∀ m, readMetadata maxAlloc (more + 1) bad m = none) (m : GoMap) :
    readMetadata maxAlloc (pairs.length + (more + 1)) (writeMetadata pairs ++ bad) m
      = none := by
  induction pairs generalizing m with
  | nil =>
    simp only [List.length_nil, Nat.zero_add, writeMetadata, List.nil_append]
    exact hbad m
  | cons e pairs ih =>
    obtain ⟨k, v⟩ := e
    have hk : k.length ≤ maxAlloc := (hlen (k, v) (by simp)).1
    have hv : v.length ≤ maxAlloc := (hlen (k, v) (by simp)).2
    have hsucc : (List.length ((k, v) :: pairs)) + (more + 1)
        = (pairs.length + (more + 1)) + 1 := by
      simp only [List.length_cons]
      omega
    rw [hsucc]
    simp only [readMetadata, writeMetadata, List.append_assoc, binaryRead_binaryWrite]
    rw [toInt64_ofInt64_length k.length (by omega), toInt64_ofInt64_length v.length (by omega),
      makeBytes_length _ _ hk, makeBytes_length _ _ hv]
    simp only [readerRead_append]
    exact ih (fun kv hkv => hlen kv (List.mem_cons_of_mem _ hkv)) _

/-- A turn of the metadata loop panics on a negative `key_length`, whatever
follows the field. -/
theorem readMetadata_negative_key (maxAlloc more keyLen : Nat) (rest : Bytes) (m : GoMap)
    (hneg : toInt64 keyLen < 0) :
    readMetadata maxAlloc (more + 1) (binaryWrite keyLen ++ rest) m = none := by
  simp only [readMetadata, binaryRead_binaryWrite]
  rw [toInt64_mod, makeBytes_neg _ _ hneg]

/-- A turn of the metadata loop panics on a negative `value_length`, whatever
follows the field. -/
theorem readMetadata_negative_value (maxAlloc more keyLen valueLen : Nat) (rest : Bytes)
    (m : GoMap) (hneg : toInt64 valueLen < 0) :
    readMetadata maxAlloc (more + 1) (binaryWrite keyLen ++ (binaryWrite valueLen ++ rest)) m
      = none := by
  simp only [readMetadata, binaryRead_binaryWrite]
  rw [toInt64_mod valueLen, makeBytes_neg _ (toInt64 valueLen) hneg]
  cases makeBytes maxAlloc (toInt64 (keyLen % 18446744073709551616)) <;> rfl

/-- A turn of the decode loop panics on a negative `series_length`, whatever
follows the field, the metadata count included. -/
theorem decodeRecord_negative_series (maxAlloc unix value seriesLen : Nat) (rest : Bytes)
    (hneg : toInt64 seriesLen < 0) :
    decodeRecord maxAlloc
        (binaryWrite unix ++ binaryWrite value ++ binaryWrite seriesLen ++ rest) = none := by
  simp only [decodeRecord, List.append_assoc, binaryRead_binaryWrite]
  rw [toInt64_mod, makeBytes_neg _ _ hneg]

/-- A turn of the decode loop on a record with a negative length panics. -/
theorem decodeRecord_NegativeLength (maxAlloc : Nat) (hcap : maxAlloc < 9223372036854775808)
    (record : Bytes) (h : NegativeLength maxAlloc record) :
    decodeRecord maxAlloc record = none := by
  cases h with
  | series unix value seriesLen rest hneg =>
    exact decodeRecord_negative_series maxAlloc unix value seriesLen rest hneg
  | key unix value count series pairs keyLen rest hseries hpairs hcount hneg =>
    have hn : (toInt64 count).toNat
        = pairs.length + (((toInt64 count).toNat - pairs.length - 1) + 1) := by omega
    simp only [decodeRecord, List.append_assoc, binaryRead_binaryWrite]
    rw [toInt64_ofInt64_length _ (Nat.lt_of_le_of_lt hseries hcap),
      makeBytes_length _ _ hseries]
    simp only [readerRead_append]
    rw [toInt64_mod, hn,
      readMetadata_panic_after maxAlloc hcap pairs hpairs _ _
        (fun m => readMetadata_negative_key maxAlloc _ keyLen rest m hneg)]
  | value unix value count series pairs keyLen valueLen rest hseries hpairs hcount hkey hneg =>
    have hn : (toInt64 count).toNat
        = pairs.length + (((toInt64 count).toNat - pairs.length - 1) + 1) := by omega
    simp only [decodeRecord, List.append_assoc, binaryRead_binaryWrite]
    rw [toInt64_ofInt64_length _ (Nat.lt_of_le_of_lt hseries hcap),
      makeBytes_length _ _ hseries]
    simp only [readerRead_append]
    rw [toInt64_mod, hn,
      readMetadata_panic_after maxAlloc hcap pairs hpairs _ _
        (fun m => readMetadata_negative_value maxAlloc _ keyLen valueLen rest m hneg)]

theorem NegativeLength_length_pos (maxAlloc : Nat) (record : Bytes)
    (h : NegativeLength maxAlloc record) : 0 < record.length := by
  cases h <;>
    · simp only [List.length_append, binaryWrite_length]
      omega

/-- C5, as stated, fails: on a header whose `series_length` is `-1` the decode
loop panics at `make([]byte, seriesLen)`; it returns no error. -/
theorem negative_series_length_panics :
    toInt64 (leNat ((negativeSeriesLen.drop 16).take 8)) = -1
      ∧ FetchData 65536 negativeSeriesLen = Outcome.panicked := by
  decide

/-- The decode loop of `FetchData` has no way to return an error: whatever
the bytes, the error it returns is nil. -/
theorem FetchData_no_error (maxAlloc : Nat) (data : Bytes) (reports : List Report)
    (e : String) : FetchData maxAlloc data ≠ Outcome.returned reports (some e) :=
  decodeLoop_no_error maxAlloc _ _ _ _ e

/-- C5, amended: a negative length makes the decode loop of `FetchData` panic
at the allocation of the payload; the call returns neither an error nor a
report list.  The buffer holds any well-formed records and then a record in
which a length field reads as a negative `int64` (`NegativeLength`): its
`series_length`; or, after a sound series and sound metadata pairs, fewer
than the metadata count, the `key_length` of the next pair; or the
`value_length` of that pair, its `key_length` being one that can be
allocated.  Whatever bytes follow the negative field, none included, the call
ends in a runtime panic. -/
theorem FetchData_negative_length (maxAlloc : Nat) (hcap : maxAlloc < 9223372036854775808)
    (batch : List (Report × GoMap)) (hbatch : ∀ q ∈ batch, WellFormed maxAlloc q)
    (record : Bytes) (hneg : NegativeLength maxAlloc record) :
    FetchData maxAlloc (appendAll batch ++ record) = Outcome.panicked := by
  have hpos := NegativeLength_length_pos maxAlloc record hneg
  have hrec := decodeRecord_NegativeLength maxAlloc hcap record hneg
  unfold FetchData
  rw [decodeLoop_appendAll maxAlloc hcap batch hbatch, decodeLoop_panic _ _ _ hpos hrec]

theorem FetchData_negative_length_witness :
    FetchData 65536 (appendAll [] ++ negativeSeriesLen) = Outcome.panicked
    ∧ FetchData 65536 (appendAll sampleBatch ++ (binaryWrite 1700000120 ++ binaryWrite 0
        ++ binaryWrite (ofInt64 (-1)) ++ [7, 7, 7]))
      = Outcome.panicked
    ∧ FetchData 65536 (appendAll sampleBatch ++ (binaryWrite 1700000120 ++ binaryWrite 0
        ++ binaryWrite (ofInt64 (([99, 112, 117] : Bytes).length)) ++ binaryWrite 2
        ++ [99, 112, 117] ++ writeMetadata [([104, 111, 115, 116], [97])]
        ++ binaryWrite (ofInt64 (-5)) ++ []))
      = Outcome.panicked
    ∧ FetchData 65536 (appendAll sampleBatch ++ (binaryWrite 1700000120 ++ binaryWrite 0
        ++ binaryWrite (ofInt64 (([99, 112, 117] : Bytes).length)) ++ binaryWrite 2
        ++ [99, 112, 117] ++ writeMetadata [([104, 111, 115, 116], [97])]
        ++ binaryWrite 5 ++ binaryWrite (ofInt64 (-3)) ++ [1, 2, 3, 4, 5]))
      = Outcome.panicked :=
  ⟨FetchData_negative_length 65536 (by decide) [] (by simp) negativeSeriesLen
      (NegativeLength.series 1 0 (ofInt64 (-1)) (binaryWrite 0) (by decide)),
    FetchData_negative_length 65536 (by decide) sampleBatch
      (by
        intro p hp
        simp only [sampleBatch, List.mem_cons, List.mem_singleton, List.not_mem_nil,
          or_false] at hp
        rcases hp with rfl | rfl
        all_goals exact ⟨by decide, by decide, by decide, by decide, by decide, by decide,
          by decide, by decide, by decide⟩) _
      (NegativeLength.series 1700000120 0 (ofInt64 (-1)) [7, 7, 7] (by decide)),
    FetchData_negative_length 65536 (by decide) sampleBatch
      (by
        intro p hp
        simp only [sampleBatch, List.mem_cons, List.mem_singleton, List.not_mem_nil,
          or_false] at hp
        rcases hp with rfl | rfl
        all_goals exact ⟨by decide, by decide, by decide, by decide, by decide, by decide,
          by decide, by decide, by decide⟩) _
      (NegativeLength.key 1700000120 0 2 [99, 112, 117] [([104, 111, 115, 116], [97])]
        (ofInt64 (-5)) [] (by decide) (by decide) (by decide) (by decide)),
    FetchData_negative_length 65536 (by decide) sampleBatch
      (by
        intro p hp
        simp only [sampleBatch, List.mem_cons, List.mem_singleton, List.not_mem_nil,
          or_false] at hp
        rcases hp with rfl | rfl
        all_goals exact ⟨by decide, by decide, by decide, by decide, by decide, by decide,
          by decide, by decide, by decide⟩) _
      (NegativeLength.value 1700000120 0 2 [99, 112, 117] [([104, 111, 115, 116], [97])]
        5 (ofInt64 (-3)) [1, 2, 3, 4, 5] (by decide) (by decide) (by decide)
        ⟨by decide, by decide⟩ (by decide))⟩

/-! ### C6: length and layout of a record -/

theorem leBytes_eq_map (n u : Nat) :
    leBytes n u
      = (List.range n).map fun i => (⟨u / 256 ^ i % 256, Nat.mod_lt _ (by decide)⟩ : Byte) := by
  induction n generalizing u with
  | zero => rfl
  | succ n ih =>
    rw [leBytes, ih, List.range_succ_eq_map, List.map_cons, List.map_map]
    congr 1
    · simp
    · apply List.map_congr_left
      intro i _
      apply Fin.ext
      simp only [Function.comp_apply]
      rw [Nat.div_div_eq_div_mul, pow_succ']

theorem binaryWrite_eq_int64LE (x : Int) : binaryWrite (ofInt64 x) = int64LE x :=
  leBytes_eq_map 8 _

theorem binaryWrite_eq_float64LE (bits : Nat) : binaryWrite bits = float64LE bits :=
  leBytes_eq_map 8 _

theorem writeMetadata_eq_pairsLayout (order : GoMap) :
    writeMetadata order = pairsLayout order := by
  induction order with
  | nil => rfl
  | cons e order ih =>
    obtain ⟨k, v⟩ := e
    unfold pairsLayout at ih ⊢
    simp only [writeMetadata, List.map_cons, List.flatten_cons, ih, binaryWrite_eq_int64LE]

theorem writeMetadata_length (order : GoMap) :
    (writeMetadata order).length
      = (order.map fun kv => 8 + 8 + kv.1.length + kv.2.length).sum := by
  induction order with
  | nil => rfl
  | cons e order ih =>
    obtain ⟨k, v⟩ := e
    simp only [writeMetadata, List.length_append, binaryWrite_length, List.map_cons,
      List.sum_cons, ih]

/-- C6 (encode length and layout): for every report and every iteration order
`(k_1, v_1) .. (k_m, v_m)` of its metadata map, `ReportTemperature` builds a
buffer (the build has no way to fail) of exactly
`8 + 8 + 8 + 8 + len(Series) + sum_i (8 + 8 + len(k_i) + len(v_i))` bytes:
bytes 0..7 are the little-endian `int64` Unix seconds of the timestamp, bytes
8..15 the value, bytes 16..23 the length of the series, bytes 24..31 `m`,
then come the series and, per pair, key length, value length, key, value. -/
theorem ReportTemperature_layout (payload : Report) (order : GoMap)
    (horder : order.Perm payload.Metadata) :
    ∃ buf, ReportTemperature payload order = buf
      ∧ buf.length = 8 + 8 + 8 + 8 + payload.Series.length
          + (order.map fun kv => 8 + 8 + kv.1.length + kv.2.length).sum
      ∧ buf.take 8 = int64LE payload.Timestamp.Unix
      ∧ (buf.drop 8).take 8 = float64LE payload.Value
      ∧ (buf.drop 16).take 8 = int64LE payload.Series.length
      ∧ (buf.drop 24).take 8 = int64LE order.length
      ∧ buf.drop 32 = payload.Series ++ pairsLayout order := by
  refine ⟨_, rfl, ?_, ?_, ?_, ?_, ?_, ?_⟩
  · rw [ReportTemperature_length, writeMetadata_length]
  · simp only [ReportTemperature, List.append_assoc]
    rw [List.take_left' (binaryWrite_length _), binaryWrite_eq_int64LE]
  · simp only [ReportTemperature, List.append_assoc]
    rw [List.drop_left' (binaryWrite_length _), List.take_left' (binaryWrite_length _),
      binaryWrite_eq_float64LE]
  · have h : ReportTemperature payload order
        = (binaryWrite (ofInt64 payload.Timestamp.Unix) ++ binaryWrite payload.Value)
          ++ (binaryWrite (ofInt64 payload.Series.length)
            ++ (binaryWrite (ofInt64 payload.Metadata.length)
              ++ (payload.Series ++ writeMetadata order))) := by
      simp only [ReportTemperature, List.append_assoc]
    rw [h, List.drop_left' (by simp [binaryWrite_length]),
      List.take_left' (binaryWrite_length _), binaryWrite_eq_int64LE]
  · have h : ReportTemperature payload order
        = (binaryWrite (ofInt64 payload.Timestamp.Unix) ++ binaryWrite payload.Value
            ++ binaryWrite (ofInt64 payload.Series.length))
          ++ (binaryWrite (ofInt64 payload.Metadata.length)
              ++ (payload.Series ++ writeMetadata order)) := by
      simp only [ReportTemperature, List.append_assoc]
    rw [h, List.drop_left' (by simp [binaryWrite_length]),
      List.take_left' (binaryWrite_length _), binaryWrite_eq_int64LE, horder.length_eq]
  · have h : ReportTemperature payload order
        = (binaryWrite (ofInt64 payload.Timestamp.Unix) ++ binaryWrite payload.Value
            ++ binaryWrite (ofInt64 payload.Series.length)
            ++ binaryWrite (ofInt64 payload.Metadata.length))
          ++ (payload.Series ++ writeMetadata order) := by
      simp only [ReportTemperature, List.append_assoc]
    rw [h, List.drop_left' (by simp [binaryWrite_length]), writeMetadata_eq_pairsLayout]

theorem ReportTemperature_layout_witness :
    ∃ buf, ReportTemperature cpuReport [([100, 99], [120]), ([104, 111, 115, 116], [97])] = buf
      ∧ buf.length = 8 + 8 + 8 + 8 + cpuReport.Series.length
          + (([([100, 99], [120]), ([104, 111, 115, 116], [97])] : GoMap).map
              fun kv => 8 + 8 + kv.1.length + kv.2.length).sum
      ∧ buf.take 8 = int64LE cpuReport.Timestamp.Unix
      ∧ (buf.drop 8).take 8 = float64LE cpuReport.Value
      ∧ (buf.drop 16).take 8 = int64LE cpuReport.Series.length
      ∧ (buf.drop 24).take 8
          = int64LE ([([100, 99], [120]), ([104, 111, 115, 116], [97])] : GoMap).length
      ∧ buf.drop 32 = cpuReport.Series
          ++ pairsLayout [([100, 99], [120]), ([104, 111, 115, 116], [97])] :=
  ReportTemperature_layout cpuReport [([100, 99], [120]), ([104, 111, 115, 116], [97])]
    (by decide)

/-! ### Binary search -/

/-- With a turn for every index of the interval the search returns an index
of the interval. -/
theorem searchLoop_bounds (f : Nat → Bool) (fuel i j : Nat) (hij : i ≤ j)
    (hfuel : j - i ≤ fuel) :
    ∃ r, searchLoop f fuel i j = some r ∧ i ≤ r ∧ r ≤ j := by
  induction fuel generalizing i j with
  | zero =>
    have : ¬ i < j := by omega
    exact ⟨i, by simp [searchLoop, this], Nat.le_refl _, hij⟩
  | succ fuel ih =>
    by_cases hlt : i < j
    · simp only [searchLoop, if_pos hlt]
      cases hf : f ((i + j) / 2) with
      | false =>
        obtain ⟨r, hr, h1, h2⟩ := ih ((i + j) / 2 + 1) j (by omega) (by omega)
        exact ⟨r, by simpa using hr, by omega, h2⟩
      | true =>
        obtain ⟨r, hr, h1, h2⟩ := ih i ((i + j) / 2) (by omega) (by omega)
        exact ⟨r, by simpa using hr, h1, by omega⟩
    · exact ⟨i, by simp [searchLoop, hlt], Nat.le_refl _, hij⟩

/-- The search looks at its predicate below `j` only: the value of the
closures outside the list is never used. -/
theorem searchLoop_congr (f g : Nat → Bool) (fuel i j : Nat)
    (h : ∀ k, k < j → f k = g k) : searchLoop f fuel i j = searchLoop g fuel i j := by
  induction fuel generalizing i j with
  | zero => rfl
  | succ fuel ih =>
    by_cases hlt : i < j
    · simp only [searchLoop, if_pos hlt]
      rw [h ((i + j) / 2) (by omega)]
      cases g ((i + j) / 2) with
      | false => simpa using ih ((i + j) / 2 + 1) j h
      | true => simpa using ih i ((i + j) / 2) (fun k hk => h k (by omega))
    · simp [searchLoop, hlt]

/-- `sort.Search` returns: its loop ends within `n` turns. -/
theorem Search_isSome (n : Nat) (f : Nat → Bool) : ∃ r, Search n f = some r ∧ r ≤ n := by
  obtain ⟨r, hr, _, h2⟩ := searchLoop_bounds f n 0 n (Nat.zero_le _) (by omega)
  exact ⟨r, hr, h2⟩

/-- Two searches over the same interval, the predicate of the second implying
the predicate of the first below `n`: the first does not end after the
second, whatever the order of the data. -/
theorem searchLoop_le (f g : Nat → Bool) (n : Nat)
    (himp : ∀ k, k < n → g k = true → f k = true)
    (fuel i j : Nat) (hij : i ≤ j) (hjn : j ≤ n) (hfuel : j - i ≤ fuel) :
    ∃ a b, searchLoop f fuel i j = some a ∧ searchLoop g fuel i j = some b
      ∧ a ≤ b ∧ i ≤ a ∧ b ≤ j := by
  induction fuel generalizing i j with
  | zero =>
    have : ¬ i < j := by omega
    exact ⟨i, i, by simp [searchLoop, this], by simp [searchLoop, this], Nat.le_refl _,
      Nat.le_refl _, hij⟩
  | succ fuel ih =>
    by_cases hlt : i < j
    · simp only [searchLoop, if_pos hlt]
      cases hg : g ((i + j) / 2) with
      | true =>
        have hf := himp ((i + j) / 2) (by omega) hg
        obtain ⟨a, b, ha, hb, hab, h1, h2⟩ := ih i ((i + j) / 2) (by omega) (by omega) (by omega)
        exact ⟨a, b, by simpa [hf] using ha, by simpa using hb, hab, h1, by omega⟩
      | false =>
        cases hf : f ((i + j) / 2) with
        | false =>
          obtain ⟨a, b, ha, hb, hab, h1, h2⟩ :=
            ih ((i + j) / 2 + 1) j (by omega) hjn (by omega)
          exact ⟨a, b, by simpa using ha, by simpa using hb, hab, by omega, h2⟩
        | true =>
          obtain ⟨a, ha, h1, h2⟩ := searchLoop_bounds f fuel i ((i + j) / 2) (by omega) (by omega)
          obtain ⟨b, hb, h3, h4⟩ :=
            searchLoop_bounds g fuel ((i + j) / 2 + 1) j (by omega) (by omega)
          exact ⟨a, b, by simpa using ha, by simpa using hb, by omega, h1, h4⟩
    · exact ⟨i, i, by simp [searchLoop, hlt], by simp [searchLoop, hlt], Nat.le_refl _,
        Nat.le_refl _, hij⟩

/-- On a predicate that is monotone below `n` the search finds the point where
it turns true. -/
theorem searchLoop_partition (f : Nat → Bool) (n : Nat)
    (hmono : ∀ a b, a ≤ b → b < n → f a = true → f b = true)
    (fuel i j : Nat) (hij : i ≤ j) (hjn : j ≤ n) (hfuel : j - i ≤ fuel)
    (hlow : ∀ k, k < i → f k = false)
    (hhigh : ∀ k, j ≤ k → k < n → f k = true) :
    ∃ r, searchLoop f fuel i j = some r ∧ r ≤ n
      ∧ (∀ k, k < r → f k = false) ∧ (∀ k, r ≤ k → k < n → f k = true) := by
  induction fuel generalizing i j with
  | zero =>
    have : ¬ i < j := by omega
    refine ⟨i, by simp [searchLoop, this], by omega, hlow, ?_⟩
    intro k hk hkn
    exact hhigh k (by omega) hkn
  | succ fuel ih =>
    by_cases hlt : i < j
    · simp only [searchLoop, if_pos hlt]
      cases hf : f ((i + j) / 2) with
      | false =>
        have hlow' : ∀ k, k < (i + j) / 2 + 1 → f k = false := by
          intro k hk
          cases hfk : f k with
          | false => rfl
          | true =>
            have := hmono k ((i + j) / 2) (by omega) (by omega) hfk
            rw [hf] at this
            cases this
        obtain ⟨r, hr, h1, h2, h3⟩ :=
          ih ((i + j) / 2 + 1) j (by omega) hjn (by omega) hlow' hhigh
        exact ⟨r, by simpa using hr, h1, h2, h3⟩
      | true =>
        have hhigh' : ∀ k, (i + j) / 2 ≤ k → k < n → f k = true :=
          fun k hk hkn => hmono ((i + j) / 2) k hk hkn hf
        obtain ⟨r, hr, h1, h2, h3⟩ :=
          ih i ((i + j) / 2) (by omega) (by omega) (by omega) hlow hhigh'
        exact ⟨r, by simpa using hr, h1, h2, h3⟩
    · have hji : j = i := by omega
      subst hji
      exact ⟨j, by simp [searchLoop], hjn, hlow, hhigh⟩

/-- A slice between the two points where a predicate on the positions turns
true and turns false again is the filter by that predicate. -/
theorem take_drop_eq_filter {α : Type} (p : α → Bool) (l : List α) (lo hi : Nat)
    (hlohi : lo ≤ hi)
    (h : ∀ i x, l[i]? = some x → (p x = true ↔ lo ≤ i ∧ i < hi)) :
    (l.take hi).drop lo = l.filter p := by
  induction l generalizing lo hi with
  | nil => simp
  | cons x xs ih =>
    have hx := h 0 x (by simp)
    have htail : ∀ lo' hi', (∀ i y, xs[i]? = some y → (p y = true ↔ lo' ≤ i ∧ i < hi')) →
        lo' ≤ hi' → (xs.take hi').drop lo' = xs.filter p := fun lo' hi' h' hle => ih lo' hi' hle h'
    cases hi with
    | zero =>
      have hlo : lo = 0 := by omega
      subst hlo
      have hnone : ∀ y ∈ x :: xs, ¬ p y = true := by
        intro y hy hpy
        obtain ⟨i, hi, hget⟩ := List.getElem_of_mem hy
        have := (h i y (by rw [List.getElem?_eq_getElem hi, hget])).mp hpy
        omega
      rw [List.filter_eq_nil_iff.mpr hnone]
      simp
    | succ hi =>
      cases lo with
      | zero =>
        have hpx : p x = true := hx.mpr ⟨Nat.le_refl _, Nat.succ_pos _⟩
        rw [List.take_succ_cons, List.drop_zero, List.filter_cons_of_pos hpx]
        congr 1
        have := htail 0 hi (by
          intro i y hy
          have := h (i + 1) y (by simpa using hy)
          rw [this]
          omega) (Nat.zero_le _)
        simpa using this
      | succ lo =>
        have hpx : ¬ p x = true := by
          intro hpx
          have := hx.mp hpx
          omega
        rw [List.take_succ_cons, List.drop_succ_cons, List.filter_cons_of_neg hpx]
        exact htail lo hi (by
          intro i y hy
          have := h (i + 1) y (by simpa using hy)
          rw [this]
          omega) (by omega)

/-! ### C4, C10: the range trim -/

theorem afterStart_getElem (reports : List Report) (startDate : Time) (i : Nat)
    (hi : i < reports.length) :
    afterStart reports startDate i = reports[i].Timestamp.After startDate := by
  simp [afterStart, List.getElem?_eq_getElem hi]

theorem notBeforeEnd_getElem (reports : List Report) (endDate : Time) (i : Nat)
    (hi : i < reports.length) :
    notBeforeEnd reports endDate i = !reports[i].Timestamp.Before endDate := by
  simp [notBeforeEnd, List.getElem?_eq_getElem hi]

/-- With `startDate` before `endDate`, a timestamp that is not before `endDate`
is after `startDate`. -/
theorem notBeforeEnd_imp_afterStart (reports : List Report) (startDate endDate : Time)
    (hwin : startDate.Before endDate = true) (k : Nat) (hk : k < reports.length)
    (h : notBeforeEnd reports endDate k = true) : afterStart reports startDate k = true := by
  rw [notBeforeEnd_getElem _ _ _ hk] at h
  rw [afterStart_getElem _ _ _ hk]
  simp only [Time.Before, Time.After, Bool.not_eq_true', decide_eq_false_iff_not,
    decide_eq_true_eq] at *
  omega

/-- C10 (the trim never inverts its bounds): for every list of reports, sorted
or not, and every `startDate` before `endDate`, both binary searches return,
and the indices `start` (timestamp after `startDate`) and `end` (timestamp not
before `endDate`) satisfy `0 ≤ start ≤ end ≤ len(reports)`, so that the slice
`reports[start:end]` is in bounds and the trim returns it without a panic. -/
theorem trim_in_bounds (reports : List Report) (startDate endDate : Time)
    (hwin : startDate.Before endDate = true) :
    ∃ start end_, Search reports.length (afterStart reports startDate) = some start
      ∧ Search reports.length (notBeforeEnd reports endDate) = some end_
      ∧ 0 ≤ start ∧ start ≤ end_ ∧ end_ ≤ reports.length
      ∧ trim reports startDate endDate
          = Outcome.returned ((reports.take end_).drop start) none := by
  obtain ⟨a, b, ha, hb, hab, _, hbn⟩ :=
    searchLoop_le (afterStart reports startDate) (notBeforeEnd reports endDate) reports.length
      (notBeforeEnd_imp_afterStart reports startDate endDate hwin)
      reports.length 0 reports.length (Nat.zero_le _) (Nat.le_refl _) (by omega)
  refine ⟨a, b, ha, hb, Nat.zero_le _, hab, hbn, ?_⟩
  simp only [trim, Search, ha, hb]
  rw [if_pos ⟨hab, hbn⟩]

theorem trim_in_bounds_witness :
    (∃ start end_,
      Search [reportAt 400, reportAt 100, reportAt 300, reportAt 200].length
          (afterStart [reportAt 400, reportAt 100, reportAt 300, reportAt 200] (timeUnix 150))
        = some start
      ∧ Search [reportAt 400, reportAt 100, reportAt 300, reportAt 200].length
          (notBeforeEnd [reportAt 400, reportAt 100, reportAt 300, reportAt 200] (timeUnix 350))
        = some end_
      ∧ 0 ≤ start ∧ start ≤ end_
      ∧ end_ ≤ [reportAt 400, reportAt 100, reportAt 300, reportAt 200].length
      ∧ trim [reportAt 400, reportAt 100, reportAt 300, reportAt 200] (timeUnix 150)
            (timeUnix 350)
          = Outcome.returned
              (([reportAt 400, reportAt 100, reportAt 300, reportAt 200].take end_).drop start)
              none)
    ∧ trim [reportAt 400, reportAt 100, reportAt 300, reportAt 200] (timeUnix 150)
          (timeUnix 350)
        = Outcome.returned [reportAt 300, reportAt 200] none :=
  ⟨trim_in_bounds [reportAt 400, reportAt 100, reportAt 300, reportAt 200] (timeUnix 150)
    (timeUnix 350) (by decide), by decide⟩

/-- On a list sorted by timestamp the two searches find the two boundaries of
the window and the slice between them is the filter by the window. -/
theorem sorted_trim_filter (reports : List Report) (startDate endDate : Time)
    (hsorted : reports.Pairwise fun a b => a.Timestamp.nanos ≤ b.Timestamp.nanos)
    (hwin : startDate.Before endDate = true) :
    ∃ start end_, Search reports.length (afterStart reports startDate) = some start
      ∧ Search reports.length (notBeforeEnd reports endDate) = some end_
      ∧ start ≤ end_ ∧ end_ ≤ reports.length
      ∧ (∀ i r, reports[i]? = some r → (r.Timestamp.After startDate = true ↔ start ≤ i))
      ∧ (∀ i r, reports[i]? = some r → (r.Timestamp.Before endDate = false ↔ end_ ≤ i))
      ∧ trim reports startDate endDate
          = Outcome.returned
              (reports.filter fun r => r.Timestamp.After startDate && r.Timestamp.Before endDate)
              none := by
  have hle : ∀ a b (ha : a < reports.length) (hb : b < reports.length), a ≤ b →
      reports[a].Timestamp.nanos ≤ reports[b].Timestamp.nanos := by
    intro a b ha hb hab
    rcases Nat.eq_or_lt_of_le hab with h | h
    · subst h
      exact le_refl _
    · exact List.pairwise_iff_getElem.mp hsorted a b ha hb h
  have hmonoA : ∀ a b, a ≤ b → b < reports.length →
      afterStart reports startDate a = true → afterStart reports startDate b = true := by
    intro a b hab hb h
    have ha : a < reports.length := by omega
    rw [afterStart_getElem _ _ _ ha] at h
    rw [afterStart_getElem _ _ _ hb]
    have := hle a b ha hb hab
    simp only [Time.After, decide_eq_true_eq] at *
    omega
  have hmonoB : ∀ a b, a ≤ b → b < reports.length →
      notBeforeEnd reports endDate a = true → notBeforeEnd reports endDate b = true := by
    intro a b hab hb h
    have ha : a < reports.length := by omega
    rw [notBeforeEnd_getElem _ _ _ ha] at h
    rw [notBeforeEnd_getElem _ _ _ hb]
    have := hle a b ha hb hab
    simp only [Time.Before, Bool.not_eq_true', decide_eq_false_iff_not] at *
    omega
  obtain ⟨s, hs, hsn, hs1, hs2⟩ :=
    searchLoop_partition (afterStart reports startDate) reports.length hmonoA
      reports.length 0 reports.length (Nat.zero_le _) (Nat.le_refl _) (by omega)
      (fun k hk => absurd hk (Nat.not_lt_zero _)) (fun k hk hkn => absurd hkn (by omega))
  obtain ⟨e, he, hen, he1, he2⟩ :=
    searchLoop_partition (notBeforeEnd reports endDate) reports.length hmonoB
      reports.length 0 reports.length (Nat.zero_le _) (Nat.le_refl _) (by omega)
      (fun k hk => absurd hk (Nat.not_lt_zero _)) (fun k hk hkn => absurd hkn (by omega))
  obtain ⟨a, b, ha, hb, hab, _, hbn⟩ :=
    searchLoop_le (afterStart reports startDate) (notBeforeEnd reports endDate) reports.length
      (notBeforeEnd_imp_afterStart reports startDate endDate hwin)
      reports.length 0 reports.length (Nat.zero_le _) (Nat.le_refl _) (by omega)
  rw [hs] at ha
  rw [he] at hb
  cases ha
  cases hb
  have hA : ∀ i r, reports[i]? = some r → (r.Timestamp.After startDate = true ↔ s ≤ i) := by
    intro i r hir
    obtain ⟨hi, hget⟩ := List.getElem?_eq_some_iff.mp hir
    rw [← hget, ← afterStart_getElem _ _ _ hi]
    constructor
    · intro h
      by_contra hlt
      have := hs1 i (by omega)
      rw [h] at this
      cases this
    · intro h
      exact hs2 i h hi
  have hB : ∀ i r, reports[i]? = some r → (r.Timestamp.Before endDate = false ↔ e ≤ i) := by
    intro i r hir
    obtain ⟨hi, hget⟩ := List.getElem?_eq_some_iff.mp hir
    have hnb := notBeforeEnd_getElem reports endDate i hi
    rw [hget] at hnb
    constructor
    · intro h
      by_contra hlt
      have := he1 i (by omega)
      rw [hnb, h] at this
      cases this
    · intro h
      have := he2 i h hi
      rw [hnb] at this
      simpa using this
  refine ⟨s, e, hs, he, hab, hen, hA, hB, ?_⟩
  simp only [trim, Search, hs, he]
  rw [if_pos ⟨hab, hen⟩]
  congr 1
  apply take_drop_eq_filter _ _ _ _ hab
  intro i r hir
  have h1 := hA i r hir
  have h2 := hB i r hir
  rw [Bool.and_eq_true, h1]
  constructor
  · rintro ⟨h3, h4⟩
    refine ⟨h3, ?_⟩
    by_contra hlt
    have := h2.mpr (by omega)
    rw [h4] at this
    cases this
  · rintro ⟨h3, h4⟩
    refine ⟨h3, ?_⟩
    cases hb : r.Timestamp.Before endDate with
    | true => rfl
    | false =>
      have := h2.mp hb
      omega

/-- C4 (range trim on sorted input): for every list of reports sorted
ascending by timestamp and every `startDate` before `endDate`, the two
searches return the first index `start` whose timestamp is strictly after
`startDate` and the first index `end` whose timestamp is not before `endDate`
(the length of the list when there is none), and `reports[start:end]` is
exactly the sublist of the reports with `startDate < t < endDate`, in the
original order. -/
theorem trim_sorted (reports : List Report) (startDate endDate : Time)
    (hsorted : reports.Pairwise fun a b => a.Timestamp.nanos ≤ b.Timestamp.nanos)
    (hwin : startDate.Before endDate = true) :
    ∃ start end_, Search reports.length (afterStart reports startDate) = some start
      ∧ Search reports.length (notBeforeEnd reports endDate) = some end_
      ∧ start ≤ end_ ∧ end_ ≤ reports.length
      ∧ (∀ i r, reports[i]? = some r → (r.Timestamp.After startDate = true ↔ start ≤ i))
      ∧ (∀ i r, reports[i]? = some r → (r.Timestamp.Before endDate = false ↔ end_ ≤ i))
      ∧ trim reports startDate endDate
          = Outcome.returned
              (reports.filter fun r => r.Timestamp.After startDate && r.Timestamp.Before endDate)
              none :=
  sorted_trim_filter reports startDate endDate hsorted hwin

theorem trim_sorted_witness :
    (∃ start end_,
      Search [reportAt 100, reportAt 200, reportAt 300, reportAt 400].length
          (afterStart [reportAt 100, reportAt 200, reportAt 300, reportAt 400] (timeUnix 150))
        = some start
      ∧ Search [reportAt 100, reportAt 200, reportAt 300, reportAt 400].length
          (notBeforeEnd [reportAt 100, reportAt 200, reportAt 300, reportAt 400] (timeUnix 350))
        = some end_
      ∧ start ≤ end_ ∧ end_ ≤ [reportAt 100, reportAt 200, reportAt 300, reportAt 400].length
      ∧ (∀ i r, [reportAt 100, reportAt 200, reportAt 300, reportAt 400][i]? = some r →
          (r.Timestamp.After (timeUnix 150) = true ↔ start ≤ i))
      ∧ (∀ i r, [reportAt 100, reportAt 200, reportAt 300, reportAt 400][i]? = some r →
          (r.Timestamp.Before (timeUnix 350) = false ↔ end_ ≤ i))
      ∧ trim [reportAt 100, reportAt 200, reportAt 300, reportAt 400] (timeUnix 150)
            (timeUnix 350)
          = Outcome.returned
              ([reportAt 100, reportAt 200, reportAt 300, reportAt 400].filter fun r =>
                r.Timestamp.After (timeUnix 150) && r.Timestamp.Before (timeUnix 350))
              none)
    ∧ trim [reportAt 100, reportAt 200, reportAt 300, reportAt 400] (timeUnix 150)
          (timeUnix 350)
        = Outcome.returned [reportAt 200, reportAt 300] none :=
  ⟨trim_sorted [reportAt 100, reportAt 200, reportAt 300, reportAt 400] (timeUnix 150)
    (timeUnix 350) (by decide) (by decide), by decide⟩

/-! ### C8: fetch and merge -/

theorem day_pos : ¬ (24 * Hour ≤ 0) := by decide

theorem Truncate_day (t : Time) :
    t.Truncate (24 * Hour) = ⟨t.nanos - t.nanos % 86400000000000⟩ := by
  unfold Time.Truncate
  rw [if_neg day_pos]
  rfl

/-- The loop over the days, from a day `d` that lies `m` whole days before
`endDateOnly`: `m + 2` tests of the condition end it, and it has fetched `d`,
`d + 24h`, ..., `endDateOnly` once each, in this order. -/
theorem fetchLoop_days (store : Bytes → Option (List Report)) (kvKey : Bytes) (zone : Int)
    (endDateOnly : Time) (m : Nat) (d : Time) (reports : List Report) (fetched : List Time)
    (fuel : Nat) (hd : endDateOnly.nanos = d.nanos + (m : Int) * (24 * Hour))
    (hfuel : m + 2 ≤ fuel) :
    fetchLoop store kvKey zone endDateOnly fuel d (reports, fetched)
      = some
          (reports ++ ((List.range (m + 1)).map fun k : Nat =>
              contribution (store (bucketKey kvKey zone (d.Add ((k : Int) * (24 * Hour)))))).flatten,
            fetched ++ (List.range (m + 1)).map fun k : Nat => d.Add ((k : Int) * (24 * Hour))) := by
  induction m generalizing d reports fetched fuel with
  | zero =>
    obtain ⟨fuel, rfl⟩ : ∃ f, fuel = f + 2 := ⟨fuel - 2, by omega⟩
    have hnot : d.After endDateOnly = false := by
      simp only [Time.After, decide_eq_false_iff_not]
      simp only [Nat.cast_zero, zero_mul, add_zero] at hd
      omega
    have hafter : (d.Add (Hour * 24)).After endDateOnly = true := by
      simp only [Time.After, Time.Add, decide_eq_true_eq, Hour, Second]
      simp only [Nat.cast_zero, zero_mul, add_zero] at hd
      omega
    have hd0 : d.Add (((0 : Nat) : Int) * (24 * Hour)) = d := by
      simp [Time.Add]
    have hrange : List.range (0 + 1) = [0] := rfl
    simp only [fetchLoop, hnot, hafter, Bool.false_eq_true, if_false, if_true, hrange,
      List.map_cons, List.map_nil, List.flatten_cons, List.flatten_nil, List.append_nil, hd0]
    cases store (bucketKey kvKey zone d) <;> simp [contribution]
  | succ m ih =>
    obtain ⟨fuel, rfl⟩ : ∃ f, fuel = f + 1 := ⟨fuel - 1, by omega⟩
    have hnot : d.After endDateOnly = false := by
      simp only [Time.After, decide_eq_false_iff_not]
      simp only [Hour, Second] at hd
      push_cast at hd
      omega
    have hd' : endDateOnly.nanos = (d.Add (Hour * 24)).nanos + (m : Int) * (24 * Hour) := by
      simp only [Time.Add, Hour, Second] at hd ⊢
      push_cast at hd
      omega
    have hshift : ∀ k : Nat, (d.Add (Hour * 24)).Add ((k : Int) * (24 * Hour))
        = d.Add (((k + 1 : Nat) : Int) * (24 * Hour)) := by
      intro k
      simp only [Time.Add, Hour, Second, Time.mk.injEq]
      push_cast
      omega
    have hd0 : d.Add (((0 : Nat) : Int) * (24 * Hour)) = d := by
      simp [Time.Add]
    have hrange : List.range (m + 1 + 1) = 0 :: (List.range (m + 1)).map Nat.succ :=
      List.range_succ_eq_map (m + 1)
    simp only [fetchLoop, hnot, Bool.false_eq_true, if_false]
    rw [hrange]
    simp only [List.map_cons, List.map_map, List.flatten_cons, hd0]
    cases hstore : store (bucketKey kvKey zone d) with
    | none =>
      simp only []
      rw [ih (d.Add (Hour * 24)) reports (fetched ++ [d]) fuel hd' (by omega)]
      simp only [hshift, contribution, List.nil_append, List.append_assoc, List.singleton_append,
        Function.comp_def, Nat.succ_eq_add_one]
    | some reps =>
      simp only []
      rw [ih (d.Add (Hour * 24)) (reports ++ reps) (fetched ++ [d]) fuel hd' (by omega)]
      simp only [hshift, contribution, List.append_assoc, List.singleton_append,
        Function.comp_def, Nat.succ_eq_add_one]

theorem daySteps_spec (startDate endDate : Time) (hle : endDate.Before startDate = false) :
    (endDate.Truncate (24 * Hour)).nanos
      = (startDate.Truncate (24 * Hour)).nanos
        + (daySteps startDate endDate : Int) * (24 * Hour) := by
  unfold daySteps
  rw [Truncate_day, Truncate_day]
  simp only [Time.Before, decide_eq_false_iff_not, Hour, Second] at *
  omega

/-- C8 (fetch and merge, missing buckets tolerated): for every
`startDate ≤ endDate` and every store, the loop of the handler ends (after
`N + 2` tests of its condition, `N` the number of 24 hour steps from
`floor(startDate)` to `floor(endDate)`), it fetches the days
`floor(startDate) + k * 24h` for `k = 0 .. N` once each in ascending order,
the last one being `floor(endDate)`, and the list it holds before the trim is
the concatenation, in that order, of the store's reports for the key of each
day, with nothing for a day whose fetch failed. -/
theorem fetchAll_merge (store : Bytes → Option (List Report)) (kvKey : Bytes) (zone : Int)
    (startDate endDate : Time) (fuel : Nat)
    (hle : endDate.Before startDate = false)
    (hfuel : daySteps startDate endDate + 2 ≤ fuel) :
    fetchAll store kvKey zone startDate endDate fuel
        = some
            (((List.range (daySteps startDate endDate + 1)).map fun k : Nat =>
                contribution (store (bucketKey kvKey zone (dayOfWindow startDate k)))).flatten,
              (List.range (daySteps startDate endDate + 1)).map (dayOfWindow startDate))
      ∧ dayOfWindow startDate 0 = startDate.Truncate (24 * Hour)
      ∧ dayOfWindow startDate (daySteps startDate endDate) = endDate.Truncate (24 * Hour)
      ∧ ((List.range (daySteps startDate endDate + 1)).map (dayOfWindow startDate)).Pairwise
          (fun a b => a.Before b = true) := by
  have hsteps := daySteps_spec startDate endDate hle
  refine ⟨?_, ?_, ?_, ?_⟩
  · unfold fetchAll
    simp only []
    rw [fetchLoop_days store kvKey zone _ (daySteps startDate endDate) _ [] [] fuel hsteps hfuel]
    rfl
  · simp [dayOfWindow, Time.Add]
  · simp only [dayOfWindow, Time.Add]
    rw [← hsteps]
  · rw [List.pairwise_map]
    have hlt : (List.range (daySteps startDate endDate + 1)).Pairwise (fun a b => a < b) :=
      List.pairwise_lt_range _
    refine hlt.imp ?_
    intro a b hab
    simp only [dayOfWindow, Time.Add, Time.Before, decide_eq_true_eq, Hour, Second]
    have : (a : Int) < (b : Int) := by exact_mod_cast hab
    omega

theorem fetchAll_merge_witness :
    (fetchAll gapStore [116] 0 (timeUnix 1699900000) (timeUnix 1700030010) 4
        = some
            (((List.range (daySteps (timeUnix 1699900000) (timeUnix 1700030010) + 1)).map
                fun k : Nat => contribution
                  (gapStore (bucketKey [116] 0 (dayOfWindow (timeUnix 1699900000) k)))).flatten,
              (List.range (daySteps (timeUnix 1699900000) (timeUnix 1700030010) + 1)).map
                (dayOfWindow (timeUnix 1699900000)))
      ∧ dayOfWindow (timeUnix 1699900000) 0 = (timeUnix 1699900000).Truncate (24 * Hour)
      ∧ dayOfWindow (timeUnix 1699900000)
            (daySteps (timeUnix 1699900000) (timeUnix 1700030010))
          = (timeUnix 1700030010).Truncate (24 * Hour)
      ∧ ((List.range (daySteps (timeUnix 1699900000) (timeUnix 1700030010) + 1)).map
            (dayOfWindow (timeUnix 1699900000))).Pairwise (fun a b => a.Before b = true))
    ∧ fetchAll gapStore [116] 0 (timeUnix 1699900000) (timeUnix 1700030010) 4
        = some ([reportAt 1699900000, reportAt 1700030000, reportAt 1700030001],
            [timeUnix 1699833600, timeUnix 1699920000, timeUnix 1700006400]) :=
  ⟨fetchAll_merge gapStore [116] 0 (timeUnix 1699900000) (timeUnix 1700030010) 4
    (by decide) (by decide), by decide⟩

/-! ### Calendar dates -/

/-- What `absDate` computes: the day count split into cycles of 400, 100, 4
and 1 years and the day of the year. -/
theorem absYearDay_spec (a : Nat) :
    ∃ n400 n100 n4 n1 d : Nat, n100 ≤ 3 ∧ n4 ≤ 24 ∧ n1 ≤ 3 ∧ d < 366
      ∧ absYearDay a
          = (((400 * n400 + 100 * n100 + 4 * n4 + n1 : Nat) : Int) + -292277022399, d)
      ∧ a / 86400 = 146097 * n400 + 36524 * n100 + 1461 * n4 + 365 * n1 + d := by
  generalize hD : a / 86400 = D
  generalize hn400 : D / 146097 = n400
  generalize hd1 : D - 146097 * n400 = d1
  have hd1lt : d1 < 146097 := by omega
  have hD1 : D = 146097 * n400 + d1 := by omega
  generalize hq100 : d1 / 36524 = q100
  generalize hn100 : q100 - q100 / 4 = n100
  have hn100le : n100 ≤ 3 := by omega
  generalize hd2 : d1 - 36524 * n100 = d2
  have hd2le : d2 ≤ 36524 := by omega
  have hD2 : d1 = 36524 * n100 + d2 := by omega
  generalize hn4 : d2 / 1461 = n4
  have hn4le : n4 ≤ 24 := by omega
  generalize hd3 : d2 - 1461 * n4 = d3
  have hd3lt : d3 < 1461 := by omega
  have hD3 : d2 = 1461 * n4 + d3 := by omega
  generalize hq1 : d3 / 365 = q1
  generalize hn1 : q1 - q1 / 4 = n1
  have hn1le : n1 ≤ 3 := by omega
  generalize hd4 : d3 - 365 * n1 = d4
  have hd4lt : d4 < 366 := by omega
  have hD4 : d3 = 365 * n1 + d4 := by omega
  refine ⟨n400, n100, n4, n1, d4, hn100le, hn4le, hn1le, hd4lt, ?_, by omega⟩
  simp only [absYearDay, hD, hn400, hd1, hq100, hn100, hd2, hn4, hd3, hq1, hn1, hd4]

theorem absYearDay_lt (a : Nat) : (absYearDay a).2 < 366 := by
  obtain ⟨_, _, _, _, d, _, _, _, hd, hy, _⟩ := absYearDay_spec a
  rw [hy]
  exact hd

/-- Year and day of the year determine the day. -/
theorem absYearDay_inj (a b : Nat) (h : absYearDay a = absYearDay b) :
    a / 86400 = b / 86400 := by
  obtain ⟨a400, a100, a4, a1, ad, h1, h2, h3, h4, hy, hD⟩ := absYearDay_spec a
  obtain ⟨b400, b100, b4, b1, bd, g1, g2, g3, g4, gy, gD⟩ := absYearDay_spec b
  rw [hy, gy] at h
  have hyear := congrArg Prod.fst h
  have hday := congrArg Prod.snd h
  simp only at hyear hday
  have hY : 400 * a400 + 100 * a100 + 4 * a4 + a1 = 400 * b400 + 100 * b100 + 4 * b4 + b1 := by
    omega
  have e1 : a1 = b1 := by
    have p : (400 * a400 + 100 * a100 + 4 * a4 + a1) % 4 = a1 := by omega
    have q : (400 * b400 + 100 * b100 + 4 * b4 + b1) % 4 = b1 := by omega
    rw [hY, q] at p
    exact p.symm
  have e4 : a4 = b4 := by
    have p : (100 * a400 + 25 * a100 + a4) % 25 = a4 := by omega
    have q : (100 * b400 + 25 * b100 + b4) % 25 = b4 := by omega
    have r : 100 * a400 + 25 * a100 + a4 = 100 * b400 + 25 * b100 + b4 := by omega
    rw [r, q] at p
    exact p.symm
  have e100 : a100 = b100 := by
    have p : (4 * a400 + a100) % 4 = a100 := by omega
    have q : (4 * b400 + b100) % 4 = b100 := by omega
    have r : 4 * a400 + a100 = 4 * b400 + b100 := by omega
    rw [r, q] at p
    exact p.symm
  have e400 : a400 = b400 := by omega
  rw [hD, gD, e1, e4, e100, e400, hday]

set_option maxRecDepth 100000 in
/-- Month and day give the day of the year back, and have two digits. -/
theorem monthDay_inv : ∀ leap : Bool, ∀ yday, yday < 366 →
    (daysBefore.getD ((monthDay leap yday).1 - 1) 0 + (monthDay leap yday).2 - 1
      + (if leap && decide ((monthDay leap yday).1 > 2) then 1 else 0) = yday
      ∧ (monthDay leap yday).1 < 100 ∧ (monthDay leap yday).2 < 100) := by
  decide

theorem monthDay_inj (leap : Bool) (a b : Nat) (ha : a < 366) (hb : b < 366)
    (h : monthDay leap a = monthDay leap b) : a = b := by
  have h1 := (monthDay_inv leap a ha).1
  have h2 := (monthDay_inv leap b hb).1
  rw [h] at h1
  exact h1.symm.trans h2

/-- Two instants with the same date lie on the same day. -/
theorem Date_inj (zone : Int) (t u : Time) (h : t.Date zone = u.Date zone) :
    absSeconds zone t / 86400 = absSeconds zone u / 86400 := by
  simp only [Time.Date, Prod.mk.injEq] at h
  obtain ⟨hyear, hmd⟩ := h
  rw [hyear] at hmd
  have hyd := monthDay_inj _ _ _ (absYearDay_lt _) (absYearDay_lt _) hmd
  exact absYearDay_inj _ _ (Prod.ext hyear hyd)

theorem Date_of_day (zone : Int) (t u : Time)
    (h : absSeconds zone t / 86400 = absSeconds zone u / 86400) :
    t.Date zone = u.Date zone := by
  have : absYearDay (absSeconds zone t) = absYearDay (absSeconds zone u) := by
    simp only [absYearDay, h]
  simp only [Time.Date, this]

theorem absSeconds_day (zone : Int) (t : Time) (h : Representable zone t) :
    ((absSeconds zone t / 86400 : Nat) : Int) = localDay zone t + 106751991073094 := by
  unfold absSeconds localDay
  obtain ⟨h1, h2⟩ := h
  omega

/-! ### Decimal strings -/

theorem decimalLE_value (fuel u : Nat) (h : u ≤ fuel) :
    (decimalLE fuel u).foldr (fun d acc => 10 * acc + d) 0 = u := by
  induction fuel generalizing u with
  | zero =>
    have : u = 0 := by omega
    subst this
    rfl
  | succ fuel ih =>
    by_cases hu : u = 0
    · subst hu
      simp [decimalLE]
    · simp only [decimalLE, if_neg hu, List.foldr_cons]
      rw [ih (u / 10) (by omega)]
      omega

theorem decimalLE_lt (fuel u : Nat) : ∀ d ∈ decimalLE fuel u, d < 10 := by
  induction fuel generalizing u with
  | zero => simp [decimalLE]
  | succ fuel ih =>
    by_cases hu : u = 0
    · simp [decimalLE, hu]
    · simp only [decimalLE, if_neg hu, List.mem_cons]
      rintro d (rfl | hd)
      · omega
      · exact ih _ d hd

theorem decimalLE_ne_nil (u : Nat) (hu : u ≠ 0) : decimalLE u u ≠ [] := by
  obtain ⟨n, rfl⟩ : ∃ n, u = n + 1 := ⟨u - 1, by omega⟩
  simp [decimalLE]

theorem foldl_digitByte (ds : List Nat) (hds : ∀ d ∈ ds, d < 10) (acc : Nat) :
    (ds.map digitByte).foldl (fun acc b => 10 * acc + (b.val - 48)) acc
      = ds.foldl (fun acc d => 10 * acc + d) acc := by
  induction ds generalizing acc with
  | nil => rfl
  | cons d ds ih =>
    have hd : d < 10 := hds d (by simp)
    simp only [List.map_cons, List.foldl_cons]
    have : 10 * acc + ((digitByte d).val - 48) = 10 * acc + d := by
      simp only [digitByte]
      omega
    rw [this]
    exact ih (fun e he => hds e (List.mem_cons_of_mem _ he)) _

theorem foldl_replicate_zero (k : Nat) (ds : List Nat) :
    (List.replicate k 0 ++ ds).foldl (fun acc d => 10 * acc + d) 0
      = ds.foldl (fun acc d => 10 * acc + d) 0 := by
  induction k with
  | zero => simp
  | succ k ih => simpa [List.replicate_succ] using ih

/-- The padded digits `appendInt` writes for `u`. -/
theorem digitsValue_padded (u width : Nat) :
    digitsValue
        ((List.replicate
            (width - (if u = 0 then [0] else (decimalLE u u).reverse).length) 0
          ++ (if u = 0 then [0] else (decimalLE u u).reverse)).map digitByte)
      = u := by
  unfold digitsValue
  have hlt : ∀ d ∈ List.replicate
      (width - (if u = 0 then [0] else (decimalLE u u).reverse).length) 0
      ++ (if u = 0 then [0] else (decimalLE u u).reverse), d < 10 := by
    intro d hd
    rcases List.mem_append.mp hd with h | h
    · have := (List.mem_replicate.mp h).2
      omega
    · by_cases hu : u = 0
      · rw [if_pos hu] at h
        simp only [List.mem_singleton] at h
        omega
      · rw [if_neg hu] at h
        exact decimalLE_lt u u d (List.mem_reverse.mp h)
  rw [foldl_digitByte _ hlt, foldl_replicate_zero]
  by_cases hu : u = 0
  · simp [hu]
  · rw [if_neg hu, List.foldl_reverse]
    exact decimalLE_value u u (Nat.le_refl _)

theorem padded_head (u width : Nat) :
    ∃ d rest,
      (List.replicate
          (width - (if u = 0 then [0] else (decimalLE u u).reverse).length) 0
        ++ (if u = 0 then [0] else (decimalLE u u).reverse)).map digitByte
      = digitByte d :: rest := by
  have hne : (if u = 0 then [0] else (decimalLE u u).reverse) ≠ [] := by
    by_cases hu : u = 0
    · simp [hu]
    · rw [if_neg hu]
      simpa using decimalLE_ne_nil u hu
  cases hl : List.replicate
      (width - (if u = 0 then [0] else (decimalLE u u).reverse).length) 0
      ++ (if u = 0 then [0] else (decimalLE u u).reverse) with
  | nil =>
    have := (List.append_eq_nil.mp hl).2
    exact absurd this hne
  | cons d rest => exact ⟨d, rest.map digitByte, rfl⟩

/-- A string written by `appendInt` reads back as the integer written. -/
theorem parseInt_appendInt (x : Int) (width : Nat) : parseInt (appendInt x width) = x := by
  unfold appendInt
  simp only []
  have hval := digitsValue_padded x.natAbs width
  obtain ⟨d, rest, hhead⟩ := padded_head x.natAbs width
  by_cases hx : x < 0
  · rw [if_pos hx]
    simp only [List.singleton_append, parseInt]
    rw [if_pos (by decide), hval]
    omega
  · rw [if_neg hx, List.nil_append]
    rw [hhead] at hval ⊢
    simp only [parseInt]
    have h45 : ¬ (digitByte d).val = 45 := by
      simp only [digitByte]
      omega
    rw [if_neg h45, hval]
    omega

theorem appendInt_inj (x y : Int) (width : Nat) (h : appendInt x width = appendInt y width) :
    x = y := by
  rw [← parseInt_appendInt x width, ← parseInt_appendInt y width, h]

theorem appendInt_two_length (n : Nat) (h : n < 100) : (appendInt (n : Int) 2).length = 2 := by
  interval_cases n <;> rfl

/-! ### C9: bucket keys -/

theorem Date_two_digits (zone : Int) (t : Time) :
    (t.Date zone).2.1 < 100 ∧ (t.Date zone).2.2 < 100 := by
  have := (monthDay_inv (isLeap (absYearDay (absSeconds zone t)).1)
    (absYearDay (absSeconds zone t)).2 (absYearDay_lt _)).2
  simpa [Time.Date] using this

/-- The formatted day determines the date. -/
theorem FormatKVDay_inj (zone : Int) (t u : Time)
    (h : FormatKVDay zone t = FormatKVDay zone u) : t.Date zone = u.Date zone := by
  obtain ⟨htm, htd⟩ := Date_two_digits zone t
  obtain ⟨hum, hud⟩ := Date_two_digits zone u
  simp only [FormatKVDay] at h
  have hd := List.append_inj' h (by
    rw [appendInt_two_length _ htd, appendInt_two_length _ hud])
  have h1 := List.append_inj' hd.1 rfl
  have hm := List.append_inj' h1.1 (by
    rw [appendInt_two_length _ htm, appendInt_two_length _ hum])
  have h2 := List.append_inj' hm.1 rfl
  have ey := appendInt_inj _ _ _ h2.1
  have em : (t.Date zone).2.1 = (u.Date zone).2.1 := by
    exact_mod_cast appendInt_inj _ _ _ hm.2
  have ed : (t.Date zone).2.2 = (u.Date zone).2.2 := by
    exact_mod_cast appendInt_inj _ _ _ hd.2
  exact Prod.ext ey (Prod.ext em ed)

theorem bucketKey_eq_iff (kvKey : Bytes) (zone : Int) (t u : Time) :
    bucketKey kvKey zone t = bucketKey kvKey zone u ↔ t.Date zone = u.Date zone := by
  constructor
  · intro h
    simp only [bucketKey, List.append_assoc] at h
    exact FormatKVDay_inj zone t u (List.append_cancel_left (List.append_cancel_left h))
  · intro h
    simp only [bucketKey, FormatKVDay, h]

theorem Date_eq_iff (zone : Int) (t u : Time) (ht : Representable zone t)
    (hu : Representable zone u) :
    t.Date zone = u.Date zone ↔ localDay zone t = localDay zone u := by
  have h1 := absSeconds_day zone t ht
  have h2 := absSeconds_day zone u hu
  constructor
  · intro h
    have := Date_inj zone t u h
    omega
  · intro h
    apply Date_of_day
    omega

/-- C9 (bucket key determinism): with a fixed base key and a fixed zone, the
key `kvKey + "_" + t.Format("2006_01_02")` of two instants is the same when
they lie on the same calendar day, and differs when they lie on adjacent
calendar days; the key depends on the instant only through its date (year,
month, day), and instants with distinct dates, that is on distinct days,
have distinct keys. -/
theorem bucketKey_determinism (kvKey : Bytes) (zone : Int) (t u : Time)
    (ht : Representable zone t) (hu : Representable zone u) :
    (localDay zone t = localDay zone u → bucketKey kvKey zone t = bucketKey kvKey zone u)
      ∧ (localDay zone u = localDay zone t + 1 →
          bucketKey kvKey zone t ≠ bucketKey kvKey zone u)
      ∧ (bucketKey kvKey zone t = bucketKey kvKey zone u ↔ t.Date zone = u.Date zone)
      ∧ (t.Date zone = u.Date zone ↔ localDay zone t = localDay zone u) := by
  have hkey := bucketKey_eq_iff kvKey zone t u
  have hdate := Date_eq_iff zone t u ht hu
  refine ⟨fun h => hkey.mpr (hdate.mpr h), ?_, hkey, hdate⟩
  intro h hk
  have := hdate.mp (hkey.mp hk)
  omega

theorem bucketKey_determinism_witness :
    ((localDay 3600 (timeUnix 1700002800) = localDay 3600 (timeUnix 1700089199) →
        bucketKey [116] 3600 (timeUnix 1700002800) = bucketKey [116] 3600 (timeUnix 1700089199))
      ∧ (localDay 3600 (timeUnix 1700089199) = localDay 3600 (timeUnix 1700002800) + 1 →
          bucketKey [116] 3600 (timeUnix 1700002800)
            ≠ bucketKey [116] 3600 (timeUnix 1700089199))
      ∧ (bucketKey [116] 3600 (timeUnix 1700002800) = bucketKey [116] 3600 (timeUnix 1700089199)
          ↔ (timeUnix 1700002800).Date 3600 = (timeUnix 1700089199).Date 3600)
      ∧ ((timeUnix 1700002800).Date 3600 = (timeUnix 1700089199).Date 3600
          ↔ localDay 3600 (timeUnix 1700002800) = localDay 3600 (timeUnix 1700089199)))
    ∧ localDay 3600 (timeUnix 1700002800) = 19676
    ∧ localDay 3600 (timeUnix 1700089199) = 19676
    ∧ bucketKey [116] 3600 (timeUnix 1700002800)
        = [116, 95, 50, 48, 50, 51, 95, 49, 49, 95, 49, 53]
    ∧ bucketKey [116] 3600 (timeUnix 1700089200)
        = [116, 95, 50, 48, 50, 51, 95, 49, 49, 95, 49, 54] :=
  ⟨bucketKey_determinism [116] 3600 (timeUnix 1700002800) (timeUnix 1700089199)
    ⟨by decide, by decide⟩ ⟨by decide, by decide⟩, by decide, by decide, by decide, by decide⟩

/-! ### C7: the day of an explicit end date -/

/-- With the parameter `end` the window ends at 23:59:59 of the day given. -/
theorem window_end (now : Time) (day : Int) (startParam : Option Time) :
    (window now (some (midnight day)) startParam).2
      = ⟨day * 86400000000000 + 86399000000000⟩ := by
  simp only [window, midnight, Time.Add, Hour, Second, Time.mk.injEq]
  omega

/-- With the parameter `end` set to a day, a report of a sorted merged list
that is strictly after `startDate` and strictly before 23:59:59 of that day
is in the slice the handler returns. -/
theorem trim_end_day_before_last_second (reports : List Report) (now : Time) (day : Int)
    (startParam : Option Time) (r : Report)
    (hsorted : reports.Pairwise fun a b => a.Timestamp.nanos ≤ b.Timestamp.nanos)
    (hr : r ∈ reports)
    (hstart : r.Timestamp.After (window now (some (midnight day)) startParam).1 = true)
    (hlast : r.Timestamp.nanos < day * 86400000000000 + 86399000000000) :
    ∃ out, trim reports (window now (some (midnight day)) startParam).1
        (window now (some (midnight day)) startParam).2 = Outcome.returned out none
      ∧ r ∈ out := by
  have hend := window_end now day startParam
  have hbefore : r.Timestamp.Before (window now (some (midnight day)) startParam).2 = true := by
    rw [hend]
    simpa [Time.Before] using hlast
  have hwin : (window now (some (midnight day)) startParam).1.Before
      (window now (some (midnight day)) startParam).2 = true := by
    simp only [Time.Before, Time.After, decide_eq_true_eq] at *
    omega
  obtain ⟨s, e, _, _, _, _, _, _, htrim⟩ := sorted_trim_filter reports _ _ hsorted hwin
  refine ⟨_, htrim, ?_⟩
  rw [List.mem_filter]
  exact ⟨hr, by simp [hstart, hbefore]⟩

/-- C7 at the failing input: the request `?end=2023-11-14` (day 19675), the
bucket of that day holding a report at 23:59:58 and one at 23:59:59.  The
window ends at 23:59:59; the report at 23:59:59 lies on the day of `end` and
after `startDate`, and the slice the handler returns holds the report at
23:59:58 only. -/
theorem handler_end_day_last_second :
    window (timeUnix 1700100000) (some (midnight 19675)) none
        = (timeUnix 1699401599, timeUnix 1700006399)
      ∧ (midnight 19675).nanos ≤ (reportAt 1700006399).Timestamp.nanos
      ∧ (reportAt 1700006399).Timestamp.nanos
          ≤ ((midnight 19675).Add (24 * Hour - Second)).nanos
      ∧ (reportAt 1700006399).Timestamp.After (timeUnix 1699401599) = true
      ∧ fetchAll sampleStore [116] 0 (timeUnix 1699401599) (timeUnix 1700006399) 10
          = some ([reportAt 1700006398, reportAt 1700006399],
              [midnight 19668, midnight 19669, midnight 19670, midnight 19671, midnight 19672,
                midnight 19673, midnight 19674, midnight 19675])
      ∧ handler sampleStore [116] 0 (timeUnix 1700100000) (some (midnight 19675)) none 10
          = Outcome.returned [reportAt 1700006398] none
      ∧ reportAt 1700006399 ∉ [reportAt 1700006398] := by
  decide

end Timereport
